import Mathlib

/-!
Verification development for the Fractal Cortex multidirectional slicer
(`slicing_functions.py` and the collision pre-check in `widget_functions.py`).

Modelling conventions (shallow embedding):
* Planar areas / solid volumes produced by shapely / trimesh boolean operations
  are modelled as finite unions of atomic cells: `Finset ℕ`.  `unary_union`,
  `intersection`, `difference` become `∪`, `∩`, `\` on `Finset`;
  `is_empty` becomes `= ∅`.  The hand-tuned repair tolerances
  (`buffer(0.00001)`, `equals_exact(tolerance=0.001)`) are idealised to zero:
  `buffer` is the identity and `equals_exact` is equality.
* Coordinates are rational numbers (`ℚ`).  `numpy.argmin` over a list of
  Euclidean distances is modelled as the first index attaining the minimum of
  the squared distances; `x ↦ x²` is strictly monotone on `[0, ∞)`, so both the
  comparisons and the ties are exactly those of the float-free mathematical
  distances.
* Fallible Python code (list indexing that can raise `IndexError`, dictionary
  writes that can raise `KeyError`, geometry operations that can raise) returns
  `Option`; `none` is an uncaught exception.
* Python list indexing accepts negative indices (wrap-around); this is encoded
  in `pyIdx`.
-/

/-- An idealised planar region (or solid volume): a finite union of atomic
cells, supporting exact boolean operations like shapely geometries. -/
abbrev Area : Type := Finset ℕ

/-- A 2D point with rational coordinates. -/
abbrev Pt : Type := ℚ × ℚ

/-- A two-point line segment (a shapely `LineString` of an infill hatch line
clipped to an area, which has exactly two coordinates). -/
abbrev Seg : Type := Pt × Pt

/-- Model of `shapely.ops.unary_union` applied to a list of regions: the union
of all of them. -/
def unionList (l : List Area) : Area := l.foldl (fun a b => a ∪ b) ∅

/-- Model of `fix_polygon_or_multipolygon_ring_orientation`
(slicing_functions.py:190-212).  Re-orienting the exterior/interior rings of a
polygon does not change the set of points it covers, so on the idealised area
model it is the identity. -/
def fix_polygon_or_multipolygon_ring_orientation (a : Area) : Area := a

/-- Python list indexing `l[i]` for an `int` index: indices in `[0, len)` are
direct, indices in `[-len, 0)` wrap around, anything else raises `IndexError`
(modelled as `none`). -/
def pyIdx {α : Type} (l : List α) (i : Int) : Option α :=
  if 0 ≤ i then l.get? i.toNat
  else if (l.length : Int) + i < 0 then none
  else l.get? ((l.length : Int) + i).toNat

/-- Appending to one bucket of a layer-indexed dictionary of area lists
(`manifoldAreas[j].append(a)` where the dictionary has keys
`0..numLayers-1`, stored here as a list of buckets). -/
def dictAppend (d : List (List Area)) (j : ℕ) (a : Area) : List (List Area) :=
  d.set j (d.getD j [] ++ [a])

/-- Squared Euclidean distance between two points. -/
def sqPP (p q : Pt) : ℚ := (p.1 - q.1) ^ 2 + (p.2 - q.2) ^ 2

/-- Squared Euclidean distance from a point to a two-point segment: the
squared distance to the closest point of the segment (shapely
`Point.distance(LineString)` squared), computed with the clamped projection
parameter. -/
def distSqPtSeg (p : Pt) (s : Seg) : ℚ :=
  let a := s.1
  let b := s.2
  let dx := b.1 - a.1
  let dy := b.2 - a.2
  let len2 := dx ^ 2 + dy ^ 2
  if len2 = 0 then sqPP p a
  else
    let t := ((p.1 - a.1) * dx + (p.2 - a.2) * dy) / len2
    let tc := max 0 (min 1 t)
    sqPP p (a.1 + tc * dx, a.2 + tc * dy)

/-- Model of `numpy.argmin`: the first index of a minimal element (0 on the
empty list, which the source never passes). -/
def argminQ : List ℚ → ℕ
  | [] => 0
  | x :: xs =>
    let j := argminQ xs
    if x ≤ xs.getD j x then 0 else j + 1

/-- Python `list.remove(x)`: delete the first occurrence of `x`. -/
def removeFirst (l : List Pt) (x : Pt) : List Pt :=
  match l with
  | [] => []
  | y :: ys => if y = x then ys else y :: removeFirst ys x

/-- Model of `get_infill_start_location_for_one_layer`
(slicing_functions.py:511-525): choose the candidate segment nearest to the
final shell point by point-to-LineString distance (`np.argmin` of shapely
distances), then within that segment the endpoint nearest to the final shell
point. -/
def get_infill_start_location_for_one_layer (infillLineStrings : List Seg)
    (finalShellPoint : Pt) : ℕ × Seg × Pt :=
  let euclidianDistances := infillLineStrings.map (fun line => distSqPtSeg finalShellPoint line)
  let nearestLineIndex := argminQ euclidianDistances
  let nearestLine := infillLineStrings.getD nearestLineIndex ((0, 0), (0, 0))
  let nearestLinePointDistances := [sqPP finalShellPoint nearestLine.1, sqPP finalShellPoint nearestLine.2]
  let nearestLineNearestPointIndex := argminQ nearestLinePointDistances
  let nearestLineNearestPoint := [nearestLine.1, nearestLine.2].getD nearestLineNearestPointIndex nearestLine.1
  (nearestLineIndex, nearestLine, nearestLineNearestPoint)

/-- One iteration record of the nearest-neighbour loop of
`optimize_infill_paths_for_one_layer` (slicing_functions.py:559-576): the
previously visited index is popped, the nearest remaining segment is selected
by point-to-LineString distance from the previous tail point, and it is
emitted oriented so its endpoint nearest to the tail point comes first.  The
Python loop runs exactly `len(infillLineStrings) - 1` times; `fuel` carries
that count. -/
def optLoop : ℕ → List Seg → ℕ → Pt → List Seg
  | 0, _, _, _ => []
  | fuel + 1, lines, visitedLineIndex, previousTailPoint =>
    let remaining := lines.take visitedLineIndex ++ lines.drop (visitedLineIndex + 1)
    let euclidianDistances := remaining.map (fun otherLine => distSqPtSeg previousTailPoint otherLine)
    let nearestLineIndex := argminQ euclidianDistances
    let nearestLine := remaining.getD nearestLineIndex ((0, 0), (0, 0))
    let nearestLinePointDistances := [sqPP previousTailPoint nearestLine.1, sqPP previousTailPoint nearestLine.2]
    let nearestLineNearestPointIndex := argminQ nearestLinePointDistances
    let nearestLineNearestPoint := [nearestLine.1, nearestLine.2].getD nearestLineNearestPointIndex nearestLine.1
    let nearestLineFarthestPointIndex := if nearestLineNearestPointIndex = 0 then 1 else 0
    let nearestLineFarthestPoint := [nearestLine.1, nearestLine.2].getD nearestLineFarthestPointIndex nearestLine.1
    (nearestLineNearestPoint, nearestLineFarthestPoint) ::
      optLoop fuel remaining nearestLineIndex nearestLineFarthestPoint

/-- Model of `optimize_infill_paths_for_one_layer`
(slicing_functions.py:546-577).  The first emitted segment starts at the
chosen start point (its other endpoint is obtained by `list.remove` of the
start point from the segment's coordinates); the remaining segments are
emitted by the nearest-neighbour loop.  The output flattens the Python
`[[LineString], ...]` structure to a list of oriented segments. -/
def optimize_infill_paths_for_one_layer (firstLineIndex : ℕ) (firstLine : Seg)
    (firstLineStartPoint : Pt) (infillLineStrings : List Seg) : List Seg :=
  let firstLineEndPoint :=
    (removeFirst [firstLine.1, firstLine.2] firstLineStartPoint).headD firstLine.1
  (firstLineStartPoint, firstLineEndPoint) ::
    optLoop (infillLineStrings.length - 1) infillLineStrings firstLineIndex firstLineEndPoint

/-- The unordered endpoint pair of a segment; two segments are the same
"input segment up to endpoint reversal" exactly when their keys agree. -/
def segKey (s : Seg) : Multiset Pt := {s.1, s.2}

/-- Named form of `lines.pop(visitedLineIndex)`. -/
def popAt (l : List Seg) (i : ℕ) : List Seg := l.take i ++ l.drop (i + 1)

/-- The index selected by the nearest-neighbour step. -/
def nnIdx (remaining : List Seg) (tp : Pt) : ℕ :=
  argminQ (remaining.map (fun otherLine => distSqPtSeg tp otherLine))

/-- The segment selected by the nearest-neighbour step. -/
def nnSeg (remaining : List Seg) (tp : Pt) : Seg :=
  remaining.getD (nnIdx remaining tp) ((0, 0), (0, 0))

/-- The index (0 or 1) of the selected segment's endpoint nearest to the tail
point. -/
def nnNearIdx (remaining : List Seg) (tp : Pt) : ℕ :=
  argminQ [sqPP tp (nnSeg remaining tp).1, sqPP tp (nnSeg remaining tp).2]

/-- The selected segment's endpoint nearest to the tail point. -/
def nnNear (remaining : List Seg) (tp : Pt) : Pt :=
  [(nnSeg remaining tp).1, (nnSeg remaining tp).2].getD (nnNearIdx remaining tp)
    (nnSeg remaining tp).1

/-- The selected segment's other endpoint. -/
def nnFar (remaining : List Seg) (tp : Pt) : Pt :=
  [(nnSeg remaining tp).1, (nnSeg remaining tp).2].getD
    (if nnNearIdx remaining tp = 0 then 1 else 0) (nnSeg remaining tp).1

/-! ### Helper lemmas about `argminQ` and list surgery -/

theorem argminQ_lt_length (l : List ℚ) (hl : l ≠ []) : argminQ l < l.length := by
  induction l with
  | nil => exact absurd rfl hl
  | cons x xs ih =>
    simp only [argminQ]
    by_cases hxs : xs = []
    · subst hxs
      simp
    · split
      · simp
      · have := ih hxs
        simp only [List.length_cons]
        omega

theorem argminQ_le (l : List ℚ) (i : ℕ) (hi : i < l.length) :
    l.getD (argminQ l) 0 ≤ l.getD i 0 := by
  induction l generalizing i with
  | nil => simp at hi
  | cons x xs ih =>
    by_cases hxs : xs = []
    · subst hxs
      have hi0 : i = 0 := by
        simp only [List.length_cons, List.length_nil] at hi
        omega
      subst hi0
      simp [argminQ]
    · have hlt := argminQ_lt_length xs hxs
      have hD : xs.getD (argminQ xs) x = xs.getD (argminQ xs) 0 := by
        rw [List.getD_eq_getElem xs x hlt, List.getD_eq_getElem xs 0 hlt]
      simp only [argminQ]
      split
      · rename_i h
        rw [hD] at h
        cases i with
        | zero => simp
        | succ j =>
          simp only [List.getD_cons_zero, List.getD_cons_succ]
          exact le_trans h (ih j (by simpa using hi))
      · rename_i h
        rw [hD] at h
        push_neg at h
        cases i with
        | zero =>
          simp only [List.getD_cons_succ, List.getD_cons_zero]
          exact le_of_lt h
        | succ j =>
          simp only [List.getD_cons_succ]
          exact ih j (by simpa using hi)

theorem optLoop_succ (fuel : ℕ) (lines : List Seg) (i : ℕ) (tp : Pt) :
    optLoop (fuel + 1) lines i tp =
      (nnNear (popAt lines i) tp, nnFar (popAt lines i) tp) ::
        optLoop fuel (popAt lines i) (nnIdx (popAt lines i) tp)
          (nnFar (popAt lines i) tp) := rfl

/-- Splitting a list at a valid index: the list is a permutation of the
selected element consed onto the list with that index popped. -/
theorem perm_getD_cons_popAt (l : List Seg) (i : ℕ) (hi : i < l.length) :
    l.Perm (l.getD i ((0, 0), (0, 0)) :: popAt l i) := by
  conv_lhs => rw [← List.take_append_drop i l]
  rw [List.drop_eq_getElem_cons hi, List.getD_eq_getElem l ((0, 0), (0, 0)) hi]
  exact List.perm_middle

theorem length_popAt (l : List Seg) (i : ℕ) (hi : i < l.length) :
    (popAt l i).length = l.length - 1 := by
  simp only [popAt, List.length_append, List.length_take, List.length_drop]
  omega

theorem segKey_nnNear_nnFar (remaining : List Seg) (tp : Pt) :
    segKey (nnNear remaining tp, nnFar remaining tp) = segKey (nnSeg remaining tp) := by
  have h2 : nnNearIdx remaining tp < 2 := by
    have := argminQ_lt_length
      [sqPP tp (nnSeg remaining tp).1, sqPP tp (nnSeg remaining tp).2] (by simp)
    simpa [nnNearIdx] using this
  interval_cases h : nnNearIdx remaining tp
  · simp [nnNear, nnFar, segKey, h]
  · simp only [nnNear, nnFar, segKey, h, if_neg one_ne_zero, List.getD_cons_succ,
      List.getD_cons_zero]
    exact Multiset.cons_swap _ _ _

theorem nnIdx_lt_length (remaining : List Seg) (tp : Pt) (h : remaining ≠ []) :
    nnIdx remaining tp < remaining.length := by
  have := argminQ_lt_length (remaining.map (fun o => distSqPtSeg tp o))
    (by simpa using h)
  simpa [nnIdx] using this

/-- The nearest-neighbour loop consumes exactly the segments of
`popAt lines i`, emitting each once with its endpoint pair preserved. -/
theorem optLoop_segKey_perm (fuel : ℕ) :
    ∀ (lines : List Seg) (i : ℕ) (tailPt : Pt),
      i < lines.length → fuel = lines.length - 1 →
      ((optLoop fuel lines i tailPt).map segKey).Perm ((popAt lines i).map segKey) := by
  induction fuel with
  | zero =>
    intro lines i tailPt hi hf
    have hlen0 : (popAt lines i).length = 0 := by
      rw [length_popAt lines i hi]
      omega
    rw [List.length_eq_zero] at hlen0
    rw [hlen0]
    simp [optLoop]
  | succ fuel ih =>
    intro lines i tailPt hi hf
    set remaining := popAt lines i with hrem
    have hremlen : remaining.length = lines.length - 1 := length_popAt lines i hi
    have hremne : remaining ≠ [] := by
      intro h
      rw [h] at hremlen
      simp at hremlen
      omega
    have hj : nnIdx remaining tailPt < remaining.length := nnIdx_lt_length _ _ hremne
    rw [optLoop_succ, List.map_cons, ← hrem]
    have hsplit : (remaining.map segKey).Perm
        (segKey (nnSeg remaining tailPt) :: ((popAt remaining (nnIdx remaining tailPt)).map segKey)) := by
      have := (perm_getD_cons_popAt remaining (nnIdx remaining tailPt) hj).map segKey
      simpa [nnSeg] using this
    refine List.Perm.trans ?_ hsplit.symm
    rw [segKey_nnNear_nnFar]
    exact (ih remaining (nnIdx remaining tailPt) (nnFar remaining tailPt) hj (by omega)).cons _

/-! ### Claim C3: path optimizer output is a permutation of its input -/

/-- C3: for every nonempty list of input infill segments (with the start data
produced the way every call site produces it: a valid first index, the segment
at that index, and one of its endpoints), the flattened output of
`optimize_infill_paths_for_one_layer` contains every input segment exactly
once, each possibly with its two endpoints reversed. -/
theorem optimize_infill_paths_for_one_layer_perm
    (infillLineStrings : List Seg) (firstLineIndex : ℕ) (firstLine : Seg)
    (firstLineStartPoint : Pt)
    (hidx : firstLineIndex < infillLineStrings.length)
    (hline : infillLineStrings.getD firstLineIndex ((0, 0), (0, 0)) = firstLine)
    (hstart : firstLineStartPoint = firstLine.1 ∨ firstLineStartPoint = firstLine.2) :
    ((optimize_infill_paths_for_one_layer firstLineIndex firstLine firstLineStartPoint
        infillLineStrings).map segKey).Perm (infillLineStrings.map segKey) := by
  have hkeyfirst : segKey (firstLineStartPoint,
      (removeFirst [firstLine.1, firstLine.2] firstLineStartPoint).headD firstLine.1)
      = segKey firstLine := by
    rcases hstart with h | h
    · subst h
      simp [removeFirst, segKey]
    · have hrf : removeFirst [firstLine.1, firstLine.2] firstLine.2
          = if firstLine.1 = firstLine.2 then [firstLine.2] else [firstLine.1] := by
        by_cases h12 : firstLine.1 = firstLine.2
        · simp [removeFirst, h12]
        · simp [removeFirst, h12]
      rw [h, hrf]
      by_cases h12 : firstLine.1 = firstLine.2
      · rw [if_pos h12]
        simp [segKey, h12]
      · rw [if_neg h12]
        simp only [List.headD_cons, segKey]
        exact Multiset.cons_swap _ _ _
  have hloop := optLoop_segKey_perm (infillLineStrings.length - 1) infillLineStrings
    firstLineIndex ((removeFirst [firstLine.1, firstLine.2] firstLineStartPoint).headD
      firstLine.1) hidx rfl
  have hsplit : (infillLineStrings.map segKey).Perm
      (segKey firstLine :: ((popAt infillLineStrings firstLineIndex).map segKey)) := by
    have := (perm_getD_cons_popAt infillLineStrings firstLineIndex hidx).map segKey
    rw [hline] at this
    simpa using this
  refine List.Perm.trans ?_ hsplit.symm
  simp only [optimize_infill_paths_for_one_layer, List.map_cons]
  rw [hkeyfirst]
  exact hloop.cons _

/-- Witness for C3 at the spec's fixture: two segments, starting from the
first one's left endpoint. -/
theorem optimize_infill_paths_for_one_layer_perm_witness :
    ((optimize_infill_paths_for_one_layer 0 ((0, 0), (1, 0)) (0, 0)
        [((0, 0), (1, 0)), ((5, 5), (6, 6))]).map segKey).Perm
      ([((0, 0), (1, 0)), ((5, 5), (6, 6))].map segKey) :=
  optimize_infill_paths_for_one_layer_perm [((0, 0), (1, 0)), ((5, 5), (6, 6))]
    0 ((0, 0), (1, 0)) (0, 0) (by norm_num) rfl (Or.inl rfl)

/-! ### Claim C4: choice of the first infill segment and start point -/

/-- C4 counterexample: reference point `(0,0)` with candidate segments
`[(-10,1)-(10,1)], [(2,0)-(3,0)]`.  The code selects the first segment
(point-to-segment distance 1 versus 2) and starts at its endpoint `(-10,1)`,
whose Euclidean distance from the reference point is strictly larger than that
of the endpoint `(2,0)` of the other segment — so the chosen first
segment/endpoint does not minimize the Euclidean distance from the reference
point over all endpoints of all candidate segments, contrary to the claim. -/
theorem get_infill_start_location_not_endpoint_minimal :
    get_infill_start_location_for_one_layer [((-10, 1), (10, 1)), ((2, 0), (3, 0))] (0, 0)
      = (0, ((-10, 1), (10, 1)), (-10, 1)) ∧
    sqPP (0, 0) (2, 0) < sqPP (0, 0) (-10, 1) := by
  constructor
  · norm_num [get_infill_start_location_for_one_layer, argminQ, distSqPtSeg, sqPP]
  · norm_num [sqPP]

/-- C4 (amended): the first segment chosen by
`get_infill_start_location_for_one_layer` minimizes the point-to-segment
(shapely `LineString`) Euclidean distance from the reference point over all
candidate segments, and the chosen starting endpoint is whichever of that
segment's two endpoints is closer to the reference point. -/
theorem get_infill_start_location_for_one_layer_spec
    (infillLineStrings : List Seg) (finalShellPoint : Pt)
    (h : infillLineStrings ≠ []) :
    (get_infill_start_location_for_one_layer infillLineStrings finalShellPoint).1
        < infillLineStrings.length ∧
    infillLineStrings.getD
        (get_infill_start_location_for_one_layer infillLineStrings finalShellPoint).1
        ((0, 0), (0, 0))
      = (get_infill_start_location_for_one_layer infillLineStrings finalShellPoint).2.1 ∧
    (∀ i, i < infillLineStrings.length →
      distSqPtSeg finalShellPoint
          (get_infill_start_location_for_one_layer infillLineStrings finalShellPoint).2.1
        ≤ distSqPtSeg finalShellPoint (infillLineStrings.getD i ((0, 0), (0, 0)))) ∧
    ((get_infill_start_location_for_one_layer infillLineStrings finalShellPoint).2.2
        = (get_infill_start_location_for_one_layer infillLineStrings finalShellPoint).2.1.1 ∨
     (get_infill_start_location_for_one_layer infillLineStrings finalShellPoint).2.2
        = (get_infill_start_location_for_one_layer infillLineStrings finalShellPoint).2.1.2) ∧
    sqPP finalShellPoint
        (get_infill_start_location_for_one_layer infillLineStrings finalShellPoint).2.2
      ≤ sqPP finalShellPoint
        (get_infill_start_location_for_one_layer infillLineStrings finalShellPoint).2.1.1 ∧
    sqPP finalShellPoint
        (get_infill_start_location_for_one_layer infillLineStrings finalShellPoint).2.2
      ≤ sqPP finalShellPoint
        (get_infill_start_location_for_one_layer infillLineStrings finalShellPoint).2.1.2 := by
  set ds := infillLineStrings.map (fun line => distSqPtSeg finalShellPoint line) with hds
  have hlen : ds.length = infillLineStrings.length := List.length_map _ _
  have hidx : argminQ ds < infillLineStrings.length := by
    rw [← hlen]
    exact argminQ_lt_length ds (by rw [hds]; simpa using h)
  set nl := infillLineStrings.getD (argminQ ds) ((0, 0), (0, 0)) with hnl
  have hmapD : ∀ j, j < infillLineStrings.length →
      ds.getD j 0 = distSqPtSeg finalShellPoint (infillLineStrings.getD j ((0, 0), (0, 0))) := by
    intro j hj
    rw [hds, List.getD_eq_getElem _ 0 (by simpa using hj), List.getElem_map,
      List.getD_eq_getElem _ _ hj]
  have hmin : ∀ i, i < infillLineStrings.length →
      distSqPtSeg finalShellPoint nl
        ≤ distSqPtSeg finalShellPoint (infillLineStrings.getD i ((0, 0), (0, 0))) := by
    intro i hi
    rw [hnl, ← hmapD _ hidx, ← hmapD _ hi]
    exact argminQ_le ds i (by rw [hlen]; exact hi)
  have hni2 : argminQ [sqPP finalShellPoint nl.1, sqPP finalShellPoint nl.2] < 2 := by
    have := argminQ_lt_length [sqPP finalShellPoint nl.1, sqPP finalShellPoint nl.2] (by simp)
    simpa using this
  have hcases : argminQ [sqPP finalShellPoint nl.1, sqPP finalShellPoint nl.2] = 0 ∨
      argminQ [sqPP finalShellPoint nl.1, sqPP finalShellPoint nl.2] = 1 := by omega
  have hstart : get_infill_start_location_for_one_layer infillLineStrings finalShellPoint
      = (argminQ ds, nl,
        [nl.1, nl.2].getD (argminQ [sqPP finalShellPoint nl.1, sqPP finalShellPoint nl.2]) nl.1) :=
    rfl
  rw [hstart]
  refine ⟨hidx, rfl, hmin, ?_, ?_, ?_⟩
  · rcases hcases with hni | hni <;> rw [hni]
    · exact Or.inl (by simp)
    · exact Or.inr (by simp)
  · rcases hcases with hni | hni <;> rw [hni]
    · simp
    · have := argminQ_le [sqPP finalShellPoint nl.1, sqPP finalShellPoint nl.2] 0 (by norm_num)
      rw [hni] at this
      simpa using this
  · rcases hcases with hni | hni <;> rw [hni]
    · have := argminQ_le [sqPP finalShellPoint nl.1, sqPP finalShellPoint nl.2] 1 (by norm_num)
      rw [hni] at this
      simpa using this
    · simp

/-- Witness for the amended C4 at the spec's fixture: reference `(0,0)`,
segments `[(5,5)-(6,6)], [(1,0)-(2,0)]`. -/
theorem get_infill_start_location_for_one_layer_spec_witness :
    (get_infill_start_location_for_one_layer [((5, 5), (6, 6)), ((1, 0), (2, 0))] (0, 0)).1
        < ([((5, 5), (6, 6)), ((1, 0), (2, 0))] : List Seg).length ∧
    ([((5, 5), (6, 6)), ((1, 0), (2, 0))] : List Seg).getD
        (get_infill_start_location_for_one_layer [((5, 5), (6, 6)), ((1, 0), (2, 0))] (0, 0)).1
        ((0, 0), (0, 0))
      = (get_infill_start_location_for_one_layer [((5, 5), (6, 6)), ((1, 0), (2, 0))] (0, 0)).2.1 :=
  ⟨(get_infill_start_location_for_one_layer_spec [((5, 5), (6, 6)), ((1, 0), (2, 0))] (0, 0)
      (by simp)).1,
   (get_infill_start_location_for_one_layer_spec [((5, 5), (6, 6)), ((1, 0), (2, 0))] (0, 0)
      (by simp)).2.1⟩

/-! ### Claim C6: extrusion accumulation in the G-code emitter -/

/-- Python `round(x, 5)` used on every emitted coordinate
(slicing_functions.py:1131-1132), idealised to exact rounding of rationals. -/
def round5 (x : ℚ) : ℚ := (round (x * 100000) : ℤ) / 100000

/-- Rounding both coordinates of a path point, as the emitter does before
computing the travel distance. -/
def roundPt (p : Pt) : Pt := (round5 p.1, round5 p.2)

/-- Euclidean XY travel distance
`s = ((X - previousX)**2 + (Y - previousY)**2)**0.5`
(slicing_functions.py:1150). -/
noncomputable def xyDist (p q : Pt) : ℝ :=
  Real.sqrt ((((p.1 : ℝ) - (q.1 : ℝ)) ^ 2 + ((p.2 : ℝ) - (q.2 : ℝ)) ^ 2))

/-- The per-move extrusion increment
`(4.0 * layerHeight * lineWidth * s) / (np.pi * (1.75**2))`
(slicing_functions.py:1151). -/
noncomputable def extrusionIncrement (layerHeight lineWidth : ℚ) (s : ℝ) : ℝ :=
  (4.0 * (layerHeight : ℝ) * (lineWidth : ℝ) * s) / (Real.pi * 1.75 ^ 2)

/-- The cumulative-extrusion bookkeeping of `transcribe_pathPoints_to_gcode`
(slicing_functions.py:1126-1164) for the points after the first of one path:
each point advances `E` by the increment computed from the rounded previous and
current coordinates. -/
noncomputable def ETraceGo (layerHeight lineWidth : ℚ) :
    List Pt → Pt → ℝ → List ℝ
  | [], _, _ => []
  | p :: ps, prev, E =>
    let rp := roundPt p
    let E2 := E + extrusionIncrement layerHeight lineWidth (xyDist rp prev)
    E2 :: ETraceGo layerHeight lineWidth ps rp E2

/-- The cumulative extrusion value after each point of one path: the first
point of a path is a rapid move (no extrusion), every later point extrudes. -/
noncomputable def transcribe_pathPoints_E_trace (layerHeight lineWidth : ℚ)
    (E0 : ℝ) : List Pt → List ℝ
  | [] => []
  | p :: ps => E0 :: ETraceGo layerHeight lineWidth ps (roundPt p) E0

theorem ETraceGo_getD_succ (layerHeight lineWidth : ℚ) (ps : List Pt)
    (prev : Pt) (E : ℝ) (i : ℕ) (hi : i + 1 < ps.length) :
    (ETraceGo layerHeight lineWidth ps prev E).getD (i + 1) 0
      = (ETraceGo layerHeight lineWidth ps prev E).getD i 0
        + extrusionIncrement layerHeight lineWidth
            (xyDist (roundPt (ps.getD (i + 1) (0, 0))) (roundPt (ps.getD i (0, 0)))) := by
  induction ps generalizing prev E i with
  | nil => simp at hi
  | cons p ps ih =>
    cases i with
    | zero =>
      cases ps with
      | nil => simp at hi
      | cons q ps' =>
        simp [ETraceGo]
    | succ j =>
      have hj : j + 1 < ps.length := by simpa using hi
      simpa [ETraceGo] using ih (roundPt p)
        (E + extrusionIncrement layerHeight lineWidth (xyDist (roundPt p) prev)) j hj

theorem ETraceGo_getD_zero (layerHeight lineWidth : ℚ) (ps : List Pt)
    (prev : Pt) (E : ℝ) (h : ps ≠ []) :
    (ETraceGo layerHeight lineWidth ps prev E).getD 0 0
      = E + extrusionIncrement layerHeight lineWidth
          (xyDist (roundPt (ps.getD 0 (0, 0))) (roundPt prev))
        - extrusionIncrement layerHeight lineWidth
          (xyDist (roundPt (ps.getD 0 (0, 0))) (roundPt prev))
        + extrusionIncrement layerHeight lineWidth
          (xyDist (roundPt (ps.getD 0 (0, 0))) prev) := by
  cases ps with
  | nil => exact absurd rfl h
  | cons q ps' => simp [ETraceGo]

/-- C6 (amended): every extruding move between consecutive path points
advances the cumulative extrusion by exactly
`4·layerHeight·lineWidth·s / (π·1.75²)` where `s` is the Euclidean XY distance
between the rounded consecutive points; and for `s = 10`, layer height `0.3`,
line width `0.6` the increment is approximately `0.7484` (not `2.353`),
within `10⁻³`. -/
theorem transcribe_pathPoints_extrusion_spec (layerHeight lineWidth : ℚ)
    (E0 : ℝ) (pathPoints : List Pt) (i : ℕ) (hi : i + 1 < pathPoints.length) :
    (transcribe_pathPoints_E_trace layerHeight lineWidth E0 pathPoints).getD (i + 1) 0
      = (transcribe_pathPoints_E_trace layerHeight lineWidth E0 pathPoints).getD i 0
        + extrusionIncrement layerHeight lineWidth
            (xyDist (roundPt (pathPoints.getD (i + 1) (0, 0)))
              (roundPt (pathPoints.getD i (0, 0)))) ∧
    |extrusionIncrement 0.3 0.6 10 - 0.7484| < 1 / 1000 := by
  constructor
  · cases pathPoints with
    | nil => simp at hi
    | cons p ps =>
      cases i with
      | zero =>
        cases ps with
        | nil => simp at hi
        | cons q ps' =>
          simp [transcribe_pathPoints_E_trace, ETraceGo]
      | succ j =>
        have hj : j + 1 < ps.length := by simpa using hi
        simpa [transcribe_pathPoints_E_trace] using
          ETraceGo_getD_succ layerHeight lineWidth ps (roundPt p) E0 j hj
  · have hπl : (3.141592 : ℝ) < Real.pi := Real.pi_gt_d6
    have hπu : Real.pi < 3.141593 := Real.pi_lt_d6
    have hd : (0 : ℝ) < Real.pi * 1.75 ^ 2 := by positivity
    have h1 : extrusionIncrement 0.3 0.6 10 = 7.2 / (Real.pi * 1.75 ^ 2) := by
      norm_num [extrusionIncrement]
    have hv1 : 7.2 / (Real.pi * 1.75 ^ 2) < 0.7494 := by
      rw [div_lt_iff₀ hd]
      nlinarith
    have hv2 : (0.7474 : ℝ) < 7.2 / (Real.pi * 1.75 ^ 2) := by
      rw [lt_div_iff₀ hd]
      nlinarith
    rw [h1, abs_lt]
    constructor <;> nlinarith

/-- Witness for C6 on a concrete two-point path. -/
theorem transcribe_pathPoints_extrusion_spec_witness :
    (transcribe_pathPoints_E_trace 0.3 0.6 0 [(0, 0), (10, 0)]).getD 1 0
      = (transcribe_pathPoints_E_trace 0.3 0.6 0 [(0, 0), (10, 0)]).getD 0 0
        + extrusionIncrement 0.3 0.6
            (xyDist (roundPt (([(0, 0), (10, 0)] : List Pt).getD 1 (0, 0)))
              (roundPt (([(0, 0), (10, 0)] : List Pt).getD 0 (0, 0)))) ∧
    |extrusionIncrement 0.3 0.6 10 - 0.7484| < 1 / 1000 :=
  transcribe_pathPoints_extrusion_spec 0.3 0.6 0 [(0, 0), (10, 0)] 0 (by norm_num)

/-- C6 counterexample: the spec's numeric example is wrong.  With layer height
`0.3`, line width `0.6` and a `10 mm` travel, the extrusion increment
`4·0.3·0.6·10/(π·1.75²) ≈ 0.7484 mm` differs from the claimed `2.353 mm` by
far more than the stated `10⁻³` tolerance. -/
theorem extrusionIncrement_not_2_353 :
    1 / 1000 < |extrusionIncrement 0.3 0.6 10 - 2.353| := by
  have hπl : (3.141592 : ℝ) < Real.pi := Real.pi_gt_d6
  have hd : (0 : ℝ) < Real.pi * 1.75 ^ 2 := by positivity
  have h1 : extrusionIncrement 0.3 0.6 10 = 7.2 / (Real.pi * 1.75 ^ 2) := by
    norm_num [extrusionIncrement]
  have hv : 7.2 / (Real.pi * 1.75 ^ 2) < 0.7494 := by
    rw [div_lt_iff₀ hd]
    nlinarith
  rw [h1, lt_abs]
  right
  nlinarith

/-! ### Claim C7: the head/bed collision check and division by zero -/

/-- The comparison `abs(z)/np.sin(theta) < 12.0` of
`checkForBedNozzleCollisions` (slicing_functions.py:934-935) under IEEE-754
semantics: when `sin θ = 0` the quotient is `+inf` (for `z ≠ 0`) or `nan`
(for `z = 0`), and both compare `< 12.0` as false, so no collision is
flagged; for `sin θ ≠ 0` it is the exact comparison. -/
def clearanceCollides (z sinTheta : ℚ) : Bool :=
  if sinTheta = 0 then false
  else if |z| / sinTheta < 12 then true else false

/-- The inner per-point loop of `checkForBedNozzleCollisions`
(slicing_functions.py:929-936), instrumented with a counter of how many times
the division `abs(z)/np.sin(theta)` is actually evaluated (it is evaluated
whenever `stopSlicing` is still false and `z <= 12.0`, with no special case
for a zero tilt angle). -/
def checkForBedNozzleCollisions_go (sinTheta : ℚ) :
    List ℚ → Bool → ℕ → Bool × ℕ
  | [], stop, n => (stop, n)
  | z :: zs, stop, n =>
    if stop = false then
      if z ≤ 12 then
        if clearanceCollides z sinTheta then
          checkForBedNozzleCollisions_go sinTheta zs true (n + 1)
        else
          checkForBedNozzleCollisions_go sinTheta zs stop (n + 1)
      else checkForBedNozzleCollisions_go sinTheta zs stop n
    else checkForBedNozzleCollisions_go sinTheta zs stop n

/-- Model of `checkForBedNozzleCollisions` (slicing_functions.py:918-937):
iterate the per-point check over all cross-section Z-value lists of a chunk,
starting from the current global `stopSlicing` flag; `sinTheta` is
`np.sin(directionsRad[chunk][0])` (exact: `np.sin(0.0) = 0.0`).  Returns the
final flag and how many clearance divisions were evaluated. -/
def checkForBedNozzleCollisions (sinTheta : ℚ)
    (sectionZValuesBySlicePlane : List (List ℚ)) (stopSlicing : Bool) : Bool × ℕ :=
  sectionZValuesBySlicePlane.foldl
    (fun acc zs => checkForBedNozzleCollisions_go sinTheta zs acc.1 acc.2)
    (stopSlicing, 0)

/-- C7 counterexample: a chunk with tilt angle `θ = 0` (so `sin θ = 0`) and a
cross-section point at world `Z = 5 ≤ 12`: `checkForBedNozzleCollisions`
evaluates the clearance division (count 1, not 0) instead of short-circuiting
before it — there is no zero-angle special case in this function (the claim's
"short-circuit as always safe" guard exists only in the separate pre-check
`checkSlicingDirectionValidity` of widget_functions.py:576-577). -/
theorem checkForBedNozzleCollisions_divides_at_zero :
    checkForBedNozzleCollisions 0 [[5]] false = (false, 1) ∧
    (checkForBedNozzleCollisions 0 [[5]] false).2 ≠ 0 := by
  have h : checkForBedNozzleCollisions 0 [[5]] false = (false, 1) := by
    norm_num [checkForBedNozzleCollisions, checkForBedNozzleCollisions_go,
      clearanceCollides]
  exact ⟨h, by rw [h]; exact one_ne_zero⟩

theorem checkForBedNozzleCollisions_go_sin_zero (zs : List ℚ) (n : ℕ) :
    checkForBedNozzleCollisions_go 0 zs false n
      = (false, n + (zs.filter (fun z => z ≤ 12)).length) := by
  induction zs generalizing n with
  | nil => simp [checkForBedNozzleCollisions_go]
  | cons z zs ih =>
    by_cases hz : z ≤ 12
    · simp [checkForBedNozzleCollisions_go, hz, clearanceCollides, ih, List.filter_cons]
      omega
    · simp [checkForBedNozzleCollisions_go, hz, ih, List.filter_cons]

/-- C7 (amended): `checkForBedNozzleCollisions` contains no special case for a
zero-magnitude tilt angle.  When `sin θ = 0`, for every cross-section point
with `z ≤ 12` the division `|z|/sin θ` is performed (once per such point);
under IEEE semantics its result (`inf` or `nan`) never compares below the
clearance threshold, so the stop flag is never raised — the chunk is treated
as safe, but by evaluating the division, not by short-circuiting around it. -/
theorem checkForBedNozzleCollisions_sin_zero_spec
    (sectionZValuesBySlicePlane : List (List ℚ)) :
    checkForBedNozzleCollisions 0 sectionZValuesBySlicePlane false
      = (false,
        (sectionZValuesBySlicePlane.map
          (fun zs => (zs.filter (fun z => z ≤ 12)).length)).sum) := by
  have main : ∀ (zss : List (List ℚ)) (n : ℕ),
      zss.foldl (fun acc zs => checkForBedNozzleCollisions_go 0 zs acc.1 acc.2) (false, n)
        = (false, n + (zss.map (fun zs => (zs.filter (fun z => z ≤ 12)).length)).sum) := by
    intro zss
    induction zss with
    | nil =>
      intro n
      simp
    | cons zs zss ih =>
      intro n
      simp only [List.foldl_cons, checkForBedNozzleCollisions_go_sin_zero]
      rw [ih]
      simp only [List.map_cons, List.sum_cons]
      refine Prod.ext rfl ?_
      simp
      omega
  simpa [checkForBedNozzleCollisions] using main sectionZValuesBySlicePlane 0

/-! ### Claim C9: single-direction slice levels -/

/-- Model of `numpy.arange(start, stop, step)` for a positive step: the
`⌈(stop-start)/step⌉` values `start + k·step`. -/
def arangeQ (start stop step : ℚ) : List ℚ :=
  (List.range (⌈(stop - start) / step⌉).toNat).map (fun k : ℕ => start + (k : ℚ) * step)

/-- The slice-level computation of `slice_in_3_axes`
(slicing_functions.py:1077-1090): clamp the Z extents to the build surface,
take the nozzle z-levels by `arange` at the layer height, shift each down by
half a layer height with 5-decimal rounding, then delete the first (boundary
degenerate) level. -/
def slice_in_3_axes_slice_levels (meshBottom meshTop layerHeight : ℚ) : List ℚ :=
  let z_extents := if meshBottom ≤ 0 then ((0 : ℚ), meshTop) else (meshBottom, meshTop)
  let z_levels := arangeQ z_extents.1 z_extents.2 layerHeight
  (z_levels.map (fun z => round5 (z - layerHeight / 2))).drop 1

/-- C9: for a mesh with Z bounds `[0, 10]` and layer height `1.0`, the
computed slice levels are the nine values `0.5, 1.5, …, 8.5` (the nominal
levels `z - layerHeight/2` with the first, boundary-degenerate one removed). -/
theorem slice_in_3_axes_slice_levels_0_10 :
    slice_in_3_axes_slice_levels 0 10 1
      = [1/2, 3/2, 5/2, 7/2, 9/2, 11/2, 13/2, 15/2, 17/2] ∧
    (slice_in_3_axes_slice_levels 0 10 1).length = 9 := by
  have hceil : (⌈((10 : ℚ) - 0) / 1⌉).toNat = 10 := by
    have h10 : (⌈((10 : ℚ) - 0) / 1⌉) = 10 := by norm_num
    rw [h10]
    rfl
  have harange : arangeQ 0 10 1 = [0, 1, 2, 3, 4, 5, 6, 7, 8, 9] := by
    rw [arangeQ, hceil]
    norm_num [List.range_succ]
  have h : slice_in_3_axes_slice_levels 0 10 1
      = ([(0:ℚ), 1, 2, 3, 4, 5, 6, 7, 8, 9].map (fun z => round5 (z - 1 / 2))).drop 1 := by
    rw [slice_in_3_axes_slice_levels]
    norm_num [harange]
  rw [h]
  norm_num [round5, round_eq]

/-! ### Claim C5: chunk decomposition -/

/-- A solid sub-volume of the mesh, in the same idealised finite-cell model as
planar areas. -/
abbrev Volume : Type := Finset ℕ

/-- One iteration of the chiselling loop of `create_chunkList`
(slicing_functions.py:812-821) over the mutable chunk list: take the raw chunk
at index `k`, subtract every later entry (iterating `reversedSlicePlaneList`
and keeping `r > k`; those entries are still unprocessed, hence present), and
store the remainder back at `k`, or `None` if it is empty.  A `None` read is
treated as `∅` here; the characterisation lemma below shows the loop never
reads a processed (possibly `None`) entry. -/
def chiselStep (n : ℕ) (state : List (Option Volume)) (k : ℕ) : List (Option Volume) :=
  let remainingStart := (state.getD k none).getD ∅
  let remainingChunk := ((List.range n).reverse.filter (fun r => k < r)).foldl
    (fun rem r => rem \ ((state.getD r none).getD ∅)) remainingStart
  state.set k (if remainingChunk = ∅ then none else some remainingChunk)

/-- Model of `create_chunkList` (slicing_functions.py:799-822), parameterised
by the raw overlapping chunks that `mesh.slice_plane` produced for the
successive slicing directions: process indices `0..n-1` in order, replacing
each entry by its remainder after subtracting all later chunks (or `None`). -/
def create_chunkList (raw : List Volume) : List (Option Volume) :=
  (List.range raw.length).foldl (chiselStep raw.length) (raw.map some)

/-- The closed form of the remainder of chunk `k`: the raw chunk minus every
later raw chunk. -/
def chiseledChunk (raw : List Volume) (k : ℕ) : Volume :=
  ((List.range raw.length).reverse.filter (fun r => k < r)).foldl
    (fun rem r => rem \ raw.getD r ∅) (raw.getD k ∅)

/-- Modelled from the source `inverse_transform_chunks_to_get_respective_slice_levels`
(slicing_functions.py:880-914): every loop iteration reads
`currentChunk.bounds` (for `k = 0`) or hands `currentChunk` to
`align_mesh_base_to_xy` (for `k > 0`), with no guard for an absent chunk, so an
absent (`None`) entry raises `AttributeError` (`none` here) instead of being
skipped. -/
def inverse_transform_chunk_access : List (Option Volume) → Option (List Volume)
  | [] => some []
  | none :: _ => none
  | some v :: rest => (inverse_transform_chunk_access rest).map (fun l => v :: l)

theorem getD_set_eq_ite {α : Type} (l : List α) (i j : ℕ) (v d : α) :
    (l.set i v).getD j d = if i = j ∧ i < l.length then v else l.getD j d := by
  induction l generalizing i j with
  | nil => simp
  | cons x xs ih =>
    cases i with
    | zero =>
      cases j with
      | zero => simp
      | succ j2 => simp
    | succ i2 =>
      cases j with
      | zero => simp
      | succ j2 =>
        simp only [List.set_cons_succ, List.getD_cons_succ, List.length_cons, ih]
        by_cases h : i2 = j2 ∧ i2 < xs.length
        · rw [if_pos h, if_pos ⟨by omega, by omega⟩]
        · rw [if_neg h, if_neg (by omega)]

theorem mem_foldl_sdiff (a : Volume) (f : ℕ → Volume) (rs : List ℕ) (x : ℕ) :
    (x ∈ rs.foldl (fun rem r => rem \ f r) a) ↔ (x ∈ a ∧ ∀ r ∈ rs, x ∉ f r) := by
  induction rs generalizing a with
  | nil => simp
  | cons r rs ih =>
    simp only [List.foldl_cons, ih, Finset.mem_sdiff, List.mem_cons]
    constructor
    · rintro ⟨⟨hx, hr⟩, hall⟩
      refine ⟨hx, ?_⟩
      rintro r2 (rfl | hr2)
      · exact hr
      · exact hall r2 hr2
    · rintro ⟨hx, hall⟩
      exact ⟨⟨hx, hall r (Or.inl rfl)⟩, fun r2 hr2 => hall r2 (Or.inr hr2)⟩

theorem foldl_congr_mem {α β : Type} (l : List β) (f g : α → β → α) (a : α)
    (h : ∀ x ∈ l, ∀ acc, f acc x = g acc x) : l.foldl f a = l.foldl g a := by
  induction l generalizing a with
  | nil => rfl
  | cons x xs ih =>
    rw [List.foldl_cons, List.foldl_cons, h x (by simp)]
    exact ih _ (fun y hy acc => h y (by simp [hy]) acc)

/-- Helper: the later stage fails as soon as any chunk is absent. -/
theorem inverse_transform_chunk_access_none (cl : List (Option Volume))
    (h : none ∈ cl) : inverse_transform_chunk_access cl = none := by
  induction cl with
  | nil => simp at h
  | cons c rest ih =>
    cases c with
    | none => rfl
    | some v =>
      have h2 : none ∈ rest := by
        rcases List.mem_cons.mp h with h3 | h3
        · exact absurd h3 (by simp)
        · exact h3
      rw [inverse_transform_chunk_access, ih h2]
      rfl

/-- State characterisation of the chiselling loop: after processing the first
`t` indices, entries below `t` hold their final value and entries from `t` on
still hold the raw chunks. -/
theorem create_chunkList_go (raw : List Volume) (t : ℕ) (ht : t ≤ raw.length) :
    ((List.range t).foldl (chiselStep raw.length) (raw.map some)).length = raw.length ∧
    ∀ j, j < raw.length →
      ((List.range t).foldl (chiselStep raw.length) (raw.map some)).getD j none
        = if j < t then
            (if chiseledChunk raw j = ∅ then none else some (chiseledChunk raw j))
          else some (raw.getD j ∅) := by
  induction t with
  | zero =>
    refine ⟨by simp, ?_⟩
    intro j hj
    rw [if_neg (by omega)]
    rw [List.range_zero, List.foldl_nil]
    rw [List.getD_eq_getElem (raw.map some) none (by simpa using hj), List.getElem_map,
      List.getD_eq_getElem raw ∅ hj]
  | succ t ih =>
    have ht' : t ≤ raw.length := by omega
    obtain ⟨ihlen, ihval⟩ := ih ht'
    set st := (List.range t).foldl (chiselStep raw.length) (raw.map some) with hst
    have hfold : (List.range (t + 1)).foldl (chiselStep raw.length) (raw.map some)
        = chiselStep raw.length st t := by
      rw [List.range_succ, List.foldl_append, List.foldl_cons, List.foldl_nil]
    have hstepval : chiselStep raw.length st t
        = st.set t (if chiseledChunk raw t = ∅ then none else some (chiseledChunk raw t)) := by
      rw [chiselStep]
      have hstart : (st.getD t none).getD ∅ = raw.getD t ∅ := by
        rw [ihval t (by omega), if_neg (by omega)]
        rfl
      have hrest : ((List.range raw.length).reverse.filter (fun r => t < r)).foldl
            (fun rem r => rem \ ((st.getD r none).getD ∅)) (raw.getD t ∅)
          = ((List.range raw.length).reverse.filter (fun r => t < r)).foldl
            (fun rem r => rem \ raw.getD r ∅) (raw.getD t ∅) := by
        refine foldl_congr_mem _ _ _ _ ?_
        intro r hr rem
        have hrmem : r < raw.length ∧ t < r := by
          have := List.mem_filter.mp hr
          refine ⟨?_, by simpa using this.2⟩
          have := List.mem_reverse.mp this.1
          simpa using this
        rw [ihval r hrmem.1, if_neg (by omega)]
        rfl
      rw [hstart, hrest]
      rfl
    refine ⟨by rw [hfold, hstepval]; simpa using ihlen, ?_⟩
    intro j hj
    rw [hfold, hstepval, getD_set_eq_ite]
    by_cases hjt : t = j
    · subst hjt
      have hlen2 : t < st.length := by rw [ihlen]; exact hj
      rw [if_pos ⟨rfl, hlen2⟩]
      rw [if_pos (Nat.lt_succ_self t)]
    · rw [if_neg (fun hcon => hjt hcon.1), ihval j hj]
      by_cases hlt : j < t
      · rw [if_pos hlt, if_pos (show j < t + 1 by omega)]
      · rw [if_neg hlt, if_neg (show ¬j < t + 1 by omega)]

/-- Final-state characterisation of `create_chunkList`. -/
theorem create_chunkList_getD (raw : List Volume) (j : ℕ) (hj : j < raw.length) :
    (create_chunkList raw).getD j none
      = if chiseledChunk raw j = ∅ then none else some (chiseledChunk raw j) := by
  have := (create_chunkList_go raw raw.length le_rfl).2 j hj
  rw [create_chunkList]
  rw [this, if_pos hj]

theorem chiseledChunk_subset (raw : List Volume) (k : ℕ) :
    chiseledChunk raw k ⊆ raw.getD k ∅ := by
  intro x hx
  exact ((mem_foldl_sdiff _ _ _ x).mp hx).1

theorem chiseledChunk_disjoint_later (raw : List Volume) (j k : ℕ)
    (hjk : j < k) (hk : k < raw.length) (x : ℕ) (hx : x ∈ chiseledChunk raw j) :
    x ∉ raw.getD k ∅ := by
  have := (mem_foldl_sdiff _ _ _ x).mp hx
  refine this.2 k ?_
  rw [List.mem_filter, List.mem_reverse, List.mem_range]
  exact ⟨hk, by simpa using hjk⟩

/-- C5 counterexample: two identical raw chunks.  Chunk 0's remainder after
subtracting the later chunk is empty, so it is recorded as `None`; the
slice-level stage then fails on the absent chunk (returns `none`,
i.e. raises) instead of skipping it, contrary to the claim. -/
theorem create_chunkList_none_not_skipped :
    create_chunkList [{0}, {0}] = [none, some {0}] ∧
    inverse_transform_chunk_access (create_chunkList [{0}, {0}]) = none := by
  constructor
  · decide
  · decide

/-- C5 (amended): after the differencing loop, the retained chunks are
pairwise disjoint, and a chunk whose remainder is empty is recorded as absent
(`None`); but absent chunks are not skipped by the later stages — the
slice-level computation accesses every chunk unguarded and fails on any list
containing an absent chunk. -/
theorem create_chunkList_spec (raw : List Volume) :
    (∀ j k, j < k → k < raw.length → ∀ Vj Vk,
      (create_chunkList raw).getD j none = some Vj →
      (create_chunkList raw).getD k none = some Vk → Vj ∩ Vk = ∅) ∧
    (∀ k, k < raw.length →
      ((create_chunkList raw).getD k none = none ↔ chiseledChunk raw k = ∅)) ∧
    (∀ k, k < raw.length → (create_chunkList raw).getD k none = none →
      inverse_transform_chunk_access (create_chunkList raw) = none) := by
  have hgetD := create_chunkList_getD raw
  refine ⟨?_, ?_, ?_⟩
  · intro j k hjk hk Vj Vk hj2 hk2
    have hjlen : j < raw.length := by omega
    rw [hgetD j hjlen] at hj2
    rw [hgetD k hk] at hk2
    have hVj : Vj = chiseledChunk raw j := by
      by_cases h : chiseledChunk raw j = ∅
      · rw [if_pos h] at hj2
        exact absurd hj2 (by simp)
      · rw [if_neg h] at hj2
        exact (Option.some_injective _ hj2).symm
    have hVk : Vk = chiseledChunk raw k := by
      by_cases h : chiseledChunk raw k = ∅
      · rw [if_pos h] at hk2
        exact absurd hk2 (by simp)
      · rw [if_neg h] at hk2
        exact (Option.some_injective _ hk2).symm
    subst hVj
    subst hVk
    rw [Finset.eq_empty_iff_forall_not_mem]
    intro x hx
    rw [Finset.mem_inter] at hx
    exact chiseledChunk_disjoint_later raw j k hjk hk x hx.1
      (chiseledChunk_subset raw k hx.2)
  · intro k hk
    rw [hgetD k hk]
    by_cases h : chiseledChunk raw k = ∅
    · simp [h]
    · simp [h]
  · intro k hk hnone
    have hmem : none ∈ create_chunkList raw := by
      have hlen : (create_chunkList raw).length = raw.length :=
        (create_chunkList_go raw raw.length le_rfl).1
      have hkl : k < (create_chunkList raw).length := by rw [hlen]; exact hk
      have hval : (create_chunkList raw).getD k none = (create_chunkList raw)[k] :=
        List.getD_eq_getElem _ none hkl
      rw [hval] at hnone
      rw [← hnone]
      exact List.getElem_mem hkl
    exact inverse_transform_chunk_access_none _ hmem

/-- Witness for the amended C5 on three concrete raw chunks. -/
theorem create_chunkList_spec_witness :
    (({0} : Volume) ∩ ({1} : Volume) = ∅) ∧
    ((create_chunkList [{0, 1}, {1}, {2}]).getD 0 none = none ↔
      chiseledChunk [{0, 1}, {1}, {2}] 0 = ∅) := by
  constructor
  · exact (create_chunkList_spec [{0, 1}, {1}, {2}]).1 0 1 (by decide) (by decide)
      {0} {1} (by decide) (by decide)
  · exact (create_chunkList_spec [{0, 1}, {1}, {2}]).2.1 0 (by decide)

/-! ### Claim C8: `safe_unary_union` three-tier fallback -/

/-- The individually repaired inputs of tier 2 of `safe_unary_union`
(slicing_functions.py:222-229): each geometry is buffered and made valid
(`make_valid(geom.buffer(buffer_value))`); geometries whose repair raises are
skipped, and only results that are valid and non-empty are kept. -/
def repairedInputs (bufferOp : Area → Option Area) (makeValidOp : Area → Option Area)
    (isValidG : Area → Bool) (isEmptyG : Area → Bool)
    (geometries : List Area) : List Area :=
  geometries.filterMap (fun geom =>
    match (bufferOp geom).bind makeValidOp with
    | some valid_geom =>
      if isValidG valid_geom && !isEmptyG valid_geom then some valid_geom else none
    | none => none)

/-- Model of `safe_unary_union` (slicing_functions.py:214-236), parameterised
by the fallible shapely operations it invokes (`none` models a raised
exception): `unaryUnionOp` is `unary_union(…)`, `bufferOp` is
`.buffer(buffer_value)`, `makeValidOp` is `make_valid(…)`, and `isValidG` /
`isEmptyG` are shapely's `is_valid` / `is_empty`.  The result type is `Area`,
not `Option Area`: whatever the operations do, no exception escapes.
`Polygon([])` is the empty region `∅`. -/
def safe_unary_union
    (unaryUnionOp : List Area → Option Area)
    (bufferOp : Area → Option Area)
    (makeValidOp : Area → Option Area)
    (isValidG : Area → Bool) (isEmptyG : Area → Bool)
    (geometries : List Area) : Area :=
  if geometries = [] then ∅
  else
    match (unaryUnionOp geometries).bind bufferOp with
    | some u => u
    | none =>
      let valid_geoms := repairedInputs bufferOp makeValidOp isValidG isEmptyG geometries
      if valid_geoms = [] then ∅
      else
        match unaryUnionOp valid_geoms with
        | some u => u
        | none => ∅

/-- C8: `safe_unary_union` always returns a geometry — whatever the underlying
shapely operations raise — and follows the three-tier fallback: (1) if the
plain union (with its repair buffer) succeeds, that is the result; (2) if it
raises, the union is retried over the individually repaired inputs and its
result returned; (3) if the repaired list is empty or the retry also raises,
the empty polygon is returned. -/
theorem safe_unary_union_three_tier
    (unaryUnionOp : List Area → Option Area)
    (bufferOp : Area → Option Area)
    (makeValidOp : Area → Option Area)
    (isValidG : Area → Bool) (isEmptyG : Area → Bool)
    (geometries : List Area) :
    (geometries = [] →
      safe_unary_union unaryUnionOp bufferOp makeValidOp isValidG isEmptyG geometries = ∅) ∧
    (∀ u, geometries ≠ [] → (unaryUnionOp geometries).bind bufferOp = some u →
      safe_unary_union unaryUnionOp bufferOp makeValidOp isValidG isEmptyG geometries = u) ∧
    (∀ u, geometries ≠ [] → (unaryUnionOp geometries).bind bufferOp = none →
      repairedInputs bufferOp makeValidOp isValidG isEmptyG geometries ≠ [] →
      unaryUnionOp (repairedInputs bufferOp makeValidOp isValidG isEmptyG geometries)
        = some u →
      safe_unary_union unaryUnionOp bufferOp makeValidOp isValidG isEmptyG geometries = u) ∧
    (geometries ≠ [] → (unaryUnionOp geometries).bind bufferOp = none →
      (repairedInputs bufferOp makeValidOp isValidG isEmptyG geometries = [] ∨
        unaryUnionOp (repairedInputs bufferOp makeValidOp isValidG isEmptyG geometries)
          = none) →
      safe_unary_union unaryUnionOp bufferOp makeValidOp isValidG isEmptyG geometries = ∅) := by
  refine ⟨?_, ?_, ?_, ?_⟩
  · intro h
    rw [safe_unary_union, if_pos h]
  · intro u hne h1
    rw [safe_unary_union, if_neg hne, h1]
  · intro u hne h1 hrep h2
    rw [safe_unary_union, if_neg hne, h1]
    simp only [if_neg hrep, h2]
  · intro hne h1 h23
    rw [safe_unary_union, if_neg hne, h1]
    rcases h23 with h2 | h3
    · simp only [if_pos h2]
    · by_cases hrep : repairedInputs bufferOp makeValidOp isValidG isEmptyG geometries = []
      · simp only [if_pos hrep]
      · simp only [if_neg hrep, h3]

/-- Witness for C8 with concrete operations for which the plain union raises
(tier 1 fails), each input repairs successfully, and the retried union raises
again (tier 3): the result is the empty polygon, no exception escapes. -/
theorem safe_unary_union_three_tier_witness :
    safe_unary_union (fun l => if 2 ≤ l.length then none else some (unionList l))
      some some (fun _ => true) (fun a => a = ∅) [{0}, {1}] = ∅ :=
  (safe_unary_union_three_tier (fun l => if 2 ≤ l.length then none else some (unionList l))
      some some (fun _ => true) (fun a => a = ∅) [{0}, {1}]).2.2.2
    (by decide) (by decide) (Or.inr (by decide))

/-! ### The Area Classifier: `get_manifold_areas_for_one_chunk`
(slicing_functions.py:238-390), for claims C1, C2 and C10.

The per-layer manifold/internal dictionaries (Python dicts keyed
`0..len(slice_levels)-1`) are lists of buckets of length
`len(innerMostPolygonsList)`; in every call site `innerMostPolygonsList` has
exactly one entry per slice level, so the global `slice_levels` length is
`innerMostPolygonsList.length` here.  Reads of `innerMostPolygonsList[idx]`
that can fall outside the list go through `pyIdx` (Python `IndexError` ↦
`none`); dictionary writes at `layer`/`layer + 1` always follow a successful
read at the same index and use the total `dictAppend`.  The conservative
`try/except` fallbacks of the source never fire in the idealised geometry
model, where every boolean operation is total, so the `try` results are used
directly. -/

/-- Which layer is exposed in `build_up_exposed_layers`
(slicing_functions.py:252-257). -/
inductive ExposedLayer : Type
  | currentLayer : ExposedLayer
  | upperLayer : ExposedLayer
deriving DecidableEq

/-- The `sign` of `build_up_exposed_layers`. -/
def exposedSign : ExposedLayer → Int
  | .currentLayer => -1
  | .upperLayer => 1

/-- The `indexAddition` of `build_up_exposed_layers`. -/
def exposedIndexAddition : ExposedLayer → Int
  | .currentLayer => 0
  | .upperLayer => 1

/-- The loop body of `build_up_exposed_layers` (slicing_functions.py:258-270)
over the remaining `k` values: read the next layer (`IndexError` ↦ `none`),
intersect the overlap area with it, and append any nonempty intersection to
that layer's manifold bucket (a write outside the dictionary's key range is a
`KeyError` ↦ `none`; the `GeometryCollection` sub-case appends the polygonal
parts, which in the set model is the same nonempty intersection). -/
def build_up_go (inn : List (List Area)) (layer : ℕ) (sign indexAddition : Int)
    (layerOverlapArea : Area) : List ℕ → List (List Area) → Option (List (List Area))
  | [], manifoldAreas => some manifoldAreas
  | k :: ks, manifoldAreas =>
    let nextLayerIndex : Int := (layer : Int) + sign * (k : Int) + indexAddition
    match pyIdx inn nextLayerIndex with
    | none => none
    | some nextLayerPolys =>
      let nextLayerArea := unionList nextLayerPolys
      let nextIntersection := layerOverlapArea ∩ nextLayerArea
      if nextIntersection = ∅ then
        build_up_go inn layer sign indexAddition layerOverlapArea ks manifoldAreas
      else
        if 0 ≤ nextLayerIndex ∧ nextLayerIndex < (manifoldAreas.length : Int) then
          build_up_go inn layer sign indexAddition layerOverlapArea ks
            (dictAppend manifoldAreas nextLayerIndex.toNat nextIntersection)
        else none

/-- Model of `build_up_exposed_layers` (slicing_functions.py:247-270): thicken
the part's surface for the remaining `k ∈ range(1, shellThickness)` steps away
from the exposed layer. -/
def build_up_exposed_layers (inn : List (List Area)) (shellThickness : ℕ)
    (layer : ℕ) (exposedLayer : ExposedLayer) (layerOverlapArea : Area)
    (manifoldAreas : List (List Area)) : Option (List (List Area)) :=
  build_up_go inn layer (exposedSign exposedLayer) (exposedIndexAddition exposedLayer)
    layerOverlapArea (List.range' 1 (shellThickness - 1)) manifoldAreas

/-- Model of `get_upperLayerOverhangArea` (slicing_functions.py:272-281):
the part of the upper layer not covered by the current layer, or the whole
upper layer when the two do not intersect (the conservative exception fallback
also yields the whole upper layer; in the total set model it never fires). -/
def get_upperLayerOverhangArea (currentLayerArea upperLayerArea : Area) : Area :=
  if currentLayerArea ∩ upperLayerArea ≠ ∅ then upperLayerArea \ currentLayerArea
  else upperLayerArea

/-- Model of `get_currentLayerUnderHangArea` (slicing_functions.py:283-292). -/
def get_currentLayerUnderHangArea (currentLayerArea upperLayerArea : Area) : Area :=
  if currentLayerArea ∩ upperLayerArea ≠ ∅ then currentLayerArea \ upperLayerArea
  else currentLayerArea

/-- The bottom band of the main layer loop (slicing_functions.py:316-324),
taken when `layer < shellThickness`. -/
def processBottom (inn : List (List Area)) (shellThickness : ℕ) (layer : ℕ)
    (currentLayerArea : Area) (manifoldAreas : List (List Area)) :
    Option (List (List Area)) :=
  let m1 := if currentLayerArea ≠ ∅ then dictAppend manifoldAreas layer currentLayerArea
    else manifoldAreas
  match pyIdx inn ((layer : Int) + 1) with
  | none => none
  | some upperPolys =>
    let upperLayerArea := fix_polygon_or_multipolygon_ring_orientation (unionList upperPolys)
    let upperLayerOverhangArea := get_upperLayerOverhangArea currentLayerArea upperLayerArea
    if upperLayerOverhangArea ≠ ∅ then
      build_up_exposed_layers inn shellThickness layer .upperLayer upperLayerOverhangArea
        (dictAppend m1 (layer + 1) upperLayerOverhangArea)
    else some m1

/-- The middle band of the main layer loop (slicing_functions.py:326-348),
taken when `shellThickness ≤ layer < numLayers - shellThickness`. -/
def processMiddle (inn : List (List Area)) (shellThickness : ℕ) (layer : ℕ)
    (currentLayerArea : Area) (manifoldAreas : List (List Area)) :
    Option (List (List Area)) :=
  match pyIdx inn ((layer : Int) + 1) with
  | none => none
  | some upperPolys =>
    let upperLayerArea := fix_polygon_or_multipolygon_ring_orientation (unionList upperPolys)
    let currentLayerUnderHangArea :=
      get_currentLayerUnderHangArea currentLayerArea upperLayerArea
    let upperLayerOverhangArea := get_upperLayerOverhangArea currentLayerArea upperLayerArea
    if currentLayerArea ≠ ∅ ∧ upperLayerArea ≠ ∅ then
      match (if currentLayerUnderHangArea ≠ ∅ then
          build_up_exposed_layers inn shellThickness layer .currentLayer
            currentLayerUnderHangArea
            (dictAppend manifoldAreas layer currentLayerUnderHangArea)
        else some manifoldAreas) with
      | none => none
      | some m1 =>
        if upperLayerOverhangArea ≠ ∅ then
          build_up_exposed_layers inn shellThickness layer .upperLayer
            upperLayerOverhangArea (dictAppend m1 (layer + 1) upperLayerOverhangArea)
        else some m1
    else if currentLayerArea ≠ ∅ ∧ upperLayerArea = ∅ then
      build_up_exposed_layers inn shellThickness layer .currentLayer currentLayerArea
        (dictAppend manifoldAreas layer currentLayerArea)
    else if currentLayerArea = ∅ ∧ upperLayerArea ≠ ∅ then
      build_up_exposed_layers inn shellThickness layer .upperLayer upperLayerArea
        (dictAppend manifoldAreas (layer + 1) upperLayerArea)
    else some manifoldAreas

/-- The upper band of the main layer loop (slicing_functions.py:350-358),
taken when `shellThickness ≤ layer < numLayers - 1` and the middle-band
condition failed. -/
def processUpperBand (inn : List (List Area)) (shellThickness : ℕ) (layer : ℕ)
    (currentLayerArea : Area) (manifoldAreas : List (List Area)) :
    Option (List (List Area)) :=
  let m1 := if currentLayerArea ≠ ∅ then dictAppend manifoldAreas layer currentLayerArea
    else manifoldAreas
  match pyIdx inn ((layer : Int) + 1) with
  | none => none
  | some upperPolys =>
    let upperLayerArea := fix_polygon_or_multipolygon_ring_orientation (unionList upperPolys)
    let currentLayerUnderHangArea :=
      get_currentLayerUnderHangArea currentLayerArea upperLayerArea
    if currentLayerUnderHangArea ≠ ∅ then
      build_up_exposed_layers inn shellThickness layer .currentLayer
        currentLayerUnderHangArea (dictAppend m1 layer currentLayerUnderHangArea)
    else some m1

/-- The uppermost layer of the main layer loop (slicing_functions.py:360-365),
taken when `layer = numLayers - 1` and no earlier band applies. -/
def processTop (inn : List (List Area)) (shellThickness : ℕ) (layer : ℕ)
    (currentLayerArea : Area) (manifoldAreas : List (List Area)) :
    Option (List (List Area)) :=
  if currentLayerArea ≠ ∅ then
    build_up_exposed_layers inn shellThickness layer .currentLayer currentLayerArea
      (dictAppend manifoldAreas layer currentLayerArea)
  else some manifoldAreas

/-- One iteration of the main layer loop of the `infillPercentage < 1.0`
branch (slicing_functions.py:313-365): the bottom band, middle band, upper
band, and uppermost layer, dispatched in the source's `elif` order. -/
def processLayer (inn : List (List Area)) (shellThickness : ℕ) (layer : ℕ)
    (manifoldAreas : List (List Area)) : Option (List (List Area)) :=
  let numLayers := inn.length
  let currentLayerArea :=
    fix_polygon_or_multipolygon_ring_orientation (unionList (inn.getD layer []))
  if layer < shellThickness then
    processBottom inn shellThickness layer currentLayerArea manifoldAreas
  else if shellThickness ≤ layer ∧ (layer : Int) < (numLayers : Int) - (shellThickness : Int) then
    processMiddle inn shellThickness layer currentLayerArea manifoldAreas
  else if shellThickness ≤ layer ∧ (layer : Int) < (numLayers : Int) - 1 then
    processUpperBand inn shellThickness layer currentLayerArea manifoldAreas
  else if (layer : Int) = (numLayers : Int) - 1 then
    processTop inn shellThickness layer currentLayerArea manifoldAreas
  else some manifoldAreas

/-- The main layer loop of the `infillPercentage < 1.0` branch. -/
def get_manifold_loop (inn : List (List Area)) (shellThickness : ℕ) :
    List ℕ → List (List Area) → Option (List (List Area))
  | [], manifoldAreas => some manifoldAreas
  | layer :: rest, manifoldAreas =>
    match processLayer inn shellThickness layer manifoldAreas with
    | none => none
    | some m2 => get_manifold_loop inn shellThickness rest m2

/-- The `infillPercentage >= 1.0` branch (slicing_functions.py:304-309):
every layer with a nonempty innermost area becomes fully manifold. -/
def manifold_full_infill (inn : List (List Area)) : List (List Area) :=
  (List.range inn.length).foldl
    (fun manifoldAreas layer =>
      let currentLayerArea :=
        fix_polygon_or_multipolygon_ring_orientation (unionList (inn.getD layer []))
      if currentLayerArea ≠ ∅ then dictAppend manifoldAreas layer currentLayerArea
      else manifoldAreas)
    (List.replicate inn.length [])

/-- One layer of the internal-area computation (slicing_functions.py:370-387):
subtract the combined manifold area from the layer area (buffers and the
`equals_exact` tolerance are idealised to the identity and exact equality;
`safe_unary_union`'s first tier is the plain union). -/
def internalForLayer (inn : List (List Area)) (manifoldAreas : List (List Area))
    (layer : ℕ) : List Area :=
  let currentLayerArea :=
    fix_polygon_or_multipolygon_ring_orientation (unionList (inn.getD layer []))
  if manifoldAreas.getD layer [] ≠ [] then
    let combinedManifoldArea := unionList (manifoldAreas.getD layer [])
    if currentLayerArea = combinedManifoldArea then []
    else
      let difference_result := currentLayerArea \ combinedManifoldArea
      if difference_result ≠ ∅ then [difference_result] else []
  else [currentLayerArea]

/-- The internal-area pass (slicing_functions.py:367-387), run when
`infillPercentage != 0`. -/
def internalAreas_calc (inn : List (List Area)) (manifoldAreas : List (List Area)) :
    List (List Area) :=
  (List.range inn.length).map (fun layer => internalForLayer inn manifoldAreas layer)

/-- Model of `get_manifold_areas_for_one_chunk` (slicing_functions.py:238-390):
returns the per-layer manifold and internal area buckets, or `none` when the
classifier raises an uncaught `IndexError`/`KeyError`. -/
def get_manifold_areas_for_one_chunk (innerMostPolygonsList : List (List Area))
    (infillPercentage : ℚ) (shellThickness : ℕ) :
    Option (List (List Area) × List (List Area)) :=
  let numLayers := innerMostPolygonsList.length
  let manifoldAreas0 : List (List Area) := List.replicate numLayers []
  let internalAreas0 : List (List Area) := List.replicate numLayers []
  if 1 ≤ infillPercentage then
    some (manifold_full_infill innerMostPolygonsList, internalAreas0)
  else if 0 ≤ infillPercentage ∧ infillPercentage < 1 then
    match get_manifold_loop innerMostPolygonsList shellThickness
        (List.range numLayers) manifoldAreas0 with
    | none => none
    | some manifoldAreas =>
      if infillPercentage ≠ 0 then
        some (manifoldAreas, internalAreas_calc innerMostPolygonsList manifoldAreas)
      else some (manifoldAreas, internalAreas0)
  else some (manifoldAreas0, internalAreas0)

/-! ### Invariants of the Area Classifier -/

/-- Every area bucket holds only subsets of its layer's innermost area. -/
def DictOK (inn : List (List Area)) (m : List (List Area)) : Prop :=
  ∀ L, ∀ a ∈ m.getD L [], a ⊆ unionList (inn.getD L [])

theorem unionList_subset (A : Area) (l : List Area) (h : ∀ a ∈ l, a ⊆ A) :
    unionList l ⊆ A := by
  have aux : ∀ (init : Area), init ⊆ A →
      l.foldl (fun a b => a ∪ b) init ⊆ A := by
    induction l with
    | nil =>
      intro init hinit
      simpa using hinit
    | cons x xs ih =>
      intro init hinit
      rw [List.foldl_cons]
      exact ih (fun a ha => h a (by simp [ha])) _
        (Finset.union_subset hinit (h x (by simp)))
  exact aux ∅ (Finset.empty_subset A)

theorem unionList_singleton (a : Area) : unionList [a] = a := by
  simp [unionList]

theorem pyIdx_natCast {α : Type} (l : List α) (n : ℕ) :
    pyIdx l (n : Int) = l.get? n := by
  rw [pyIdx, if_pos (Int.natCast_nonneg n)]
  norm_num

theorem pyIdx_add_one {α : Type} (l : List α) (layer : ℕ) :
    pyIdx l ((layer : Int) + 1) = l.get? (layer + 1) := by
  have h : ((layer : Int) + 1) = ((layer + 1 : ℕ) : Int) := by push_cast; ring
  rw [h, pyIdx_natCast]

theorem get?_eq_some_iff_getD {α : Type} (l : List α) (n : ℕ) (x d : α)
    (h : l.get? n = some x) : n < l.length ∧ l.getD n d = x := by
  have hlt : n < l.length := by
    by_contra hge
    rw [List.get?_eq_none.mpr (by omega)] at h
    exact absurd h (by simp)
  refine ⟨hlt, ?_⟩
  rw [List.getD_eq_getElem l d hlt]
  have := List.get?_eq_getElem? l n
  rw [this, List.getElem?_eq_getElem hlt] at h
  exact (Option.some_injective _ h)

theorem pyIdx_some_nonneg_getD (l : List (List Area)) (i : Int) (hi : 0 ≤ i)
    (polys : List Area) (h : pyIdx l i = some polys) :
    i.toNat < l.length ∧ l.getD i.toNat [] = polys := by
  rw [pyIdx, if_pos hi] at h
  exact get?_eq_some_iff_getD l i.toNat polys [] h

theorem DictOK_dictAppend (inn m : List (List Area)) (j : ℕ) (v : Area)
    (hm : DictOK inn m) (hv : v ⊆ unionList (inn.getD j [])) :
    DictOK inn (dictAppend m j v) := by
  intro L a ha
  rw [dictAppend, getD_set_eq_ite] at ha
  split at ha
  · rename_i hcond
    obtain ⟨rfl, _⟩ := hcond
    rcases List.mem_append.mp ha with h1 | h1
    · exact hm j a h1
    · have : a = v := by simpa using h1
      subst this
      exact hv
  · exact hm L a ha

theorem length_dictAppend (m : List (List Area)) (j : ℕ) (v : Area) :
    (dictAppend m j v).length = m.length := by
  rw [dictAppend]
  exact List.length_set m j _

theorem build_up_go_some (inn : List (List Area)) (layer : ℕ) (sign add : Int)
    (overlap : Area) :
    ∀ (ks : List ℕ) (m m2 : List (List Area)),
      build_up_go inn layer sign add overlap ks m = some m2 →
      m2.length = m.length ∧ (DictOK inn m → DictOK inn m2) := by
  intro ks
  induction ks with
  | nil =>
    intro m m2 h
    rw [build_up_go] at h
    obtain rfl := Option.some_injective _ h
    exact ⟨rfl, id⟩
  | cons k ks ih =>
    intro m m2 h
    rw [build_up_go] at h
    cases hpy : pyIdx inn ((layer : Int) + sign * (k : Int) + add) with
    | none =>
      rw [hpy] at h
      exact absurd h (by simp)
    | some nextLayerPolys =>
      rw [hpy] at h
      simp only at h
      split at h
      · exact ih m m2 h
      · split at h
        · rename_i hint hguard
          obtain ⟨hlen2, hok2⟩ := ih _ m2 h
          rw [length_dictAppend] at hlen2
          refine ⟨hlen2, fun hok => hok2 ?_⟩
          have hnn : (0 : Int) ≤ (layer : Int) + sign * (k : Int) + add := hguard.1
          obtain ⟨hlt, hgetD⟩ :=
            pyIdx_some_nonneg_getD inn _ hnn nextLayerPolys hpy
          refine DictOK_dictAppend inn m _ _ hok ?_
          rw [hgetD]
          exact subset_trans Finset.inter_subset_right (subset_refl _)
        · exact absurd h (by simp)

theorem pyIdx_isSome_of_bounds {α : Type} (l : List α) (i : Int) (hi : 0 ≤ i)
    (hlt : i < (l.length : Int)) : ∃ x, pyIdx l i = some x := by
  have hlt2 : i.toNat < l.length := by omega
  rw [pyIdx, if_pos hi, List.get?_eq_getElem?, List.getElem?_eq_getElem hlt2]
  exact ⟨_, rfl⟩

theorem build_up_go_isSome (inn : List (List Area)) (layer : ℕ) (sign add : Int)
    (overlap : Area) :
    ∀ (ks : List ℕ) (m : List (List Area)), m.length = inn.length →
      (∀ k ∈ ks, 0 ≤ (layer : Int) + sign * (k : Int) + add ∧
        (layer : Int) + sign * (k : Int) + add < (inn.length : Int)) →
      ∃ m2, build_up_go inn layer sign add overlap ks m = some m2 := by
  intro ks
  induction ks with
  | nil =>
    intro m _ _
    exact ⟨m, rfl⟩
  | cons k ks ih =>
    intro m hm hbounds
    obtain ⟨hnn, hlt⟩ := hbounds k (by simp)
    obtain ⟨polys, hpy⟩ := pyIdx_isSome_of_bounds inn _ hnn hlt
    rw [build_up_go, hpy]
    simp only
    split
    · exact ih m hm (fun k2 hk2 => hbounds k2 (by simp [hk2]))
    · rw [if_pos ⟨hnn, by rw [hm]; exact hlt⟩]
      exact ih _ (by rw [length_dictAppend]; exact hm)
        (fun k2 hk2 => hbounds k2 (by simp [hk2]))

theorem get_upperLayerOverhangArea_subset (c u : Area) :
    get_upperLayerOverhangArea c u ⊆ u := by
  rw [get_upperLayerOverhangArea]
  split
  · exact Finset.sdiff_subset
  · exact subset_refl u

theorem get_currentLayerUnderHangArea_subset (c u : Area) :
    get_currentLayerUnderHangArea c u ⊆ c := by
  rw [get_currentLayerUnderHangArea]
  split
  · exact Finset.sdiff_subset
  · exact subset_refl c

theorem build_up_exposed_layers_some (inn : List (List Area)) (st layer : ℕ)
    (e : ExposedLayer) (overlap : Area) (m m2 : List (List Area))
    (h : build_up_exposed_layers inn st layer e overlap m = some m2) :
    m2.length = m.length ∧ (DictOK inn m → DictOK inn m2) :=
  build_up_go_some inn layer (exposedSign e) (exposedIndexAddition e) overlap _ m m2 h

theorem processBottom_some (inn : List (List Area)) (st layer : ℕ)
    (cur : Area) (m m2 : List (List Area))
    (hcur : cur ⊆ unionList (inn.getD layer []))
    (h : processBottom inn st layer cur m = some m2) :
    m2.length = m.length ∧ (DictOK inn m → DictOK inn m2) := by
  simp only [processBottom] at h
  cases hpy : pyIdx inn ((layer : Int) + 1) with
  | none =>
    rw [hpy] at h
    exact absurd h (by simp)
  | some upperPolys =>
    rw [hpy] at h
    simp only at h
    rw [pyIdx_add_one] at hpy
    obtain ⟨hlt, hgetD⟩ := get?_eq_some_iff_getD inn (layer + 1) upperPolys [] hpy
    have hupper : unionList upperPolys = unionList (inn.getD (layer + 1) []) := by
      rw [hgetD]
    have hm1 : ∀ mm, DictOK inn mm → DictOK inn
        (if cur ≠ ∅ then dictAppend mm layer cur else mm) := by
      intro mm hOK
      split
      · exact DictOK_dictAppend inn mm layer cur hOK hcur
      · exact hOK
    have hm1len : ∀ mm : List (List Area),
        (if cur ≠ ∅ then dictAppend mm layer cur else mm).length = mm.length := by
      intro mm
      split
      · exact length_dictAppend mm layer cur
      · rfl
    split at h
    · rename_i hov
      obtain ⟨hlen2, hok2⟩ := build_up_exposed_layers_some inn st layer _ _ _ m2 h
      rw [length_dictAppend, hm1len] at hlen2
      refine ⟨hlen2, fun hOK => hok2 ?_⟩
      refine DictOK_dictAppend inn _ (layer + 1) _ (hm1 m hOK) ?_
      refine subset_trans (get_upperLayerOverhangArea_subset cur _) ?_
      rw [fix_polygon_or_multipolygon_ring_orientation, hupper]
    · obtain rfl := Option.some_injective _ h
      exact ⟨hm1len m, hm1 m⟩

theorem processMiddle_some (inn : List (List Area)) (st layer : ℕ)
    (cur : Area) (m m2 : List (List Area))
    (hcur : cur ⊆ unionList (inn.getD layer []))
    (h : processMiddle inn st layer cur m = some m2) :
    m2.length = m.length ∧ (DictOK inn m → DictOK inn m2) := by
  simp only [processMiddle] at h
  cases hpy : pyIdx inn ((layer : Int) + 1) with
  | none =>
    rw [hpy] at h
    exact absurd h (by simp)
  | some upperPolys =>
    rw [hpy] at h
    simp only at h
    rw [pyIdx_add_one] at hpy
    obtain ⟨hlt, hgetD⟩ := get?_eq_some_iff_getD inn (layer + 1) upperPolys [] hpy
    have hupper : fix_polygon_or_multipolygon_ring_orientation (unionList upperPolys)
        = unionList (inn.getD (layer + 1) []) := by
      rw [fix_polygon_or_multipolygon_ring_orientation, hgetD]
    split at h
    · rename_i hboth
      cases hinner : (if get_currentLayerUnderHangArea cur
            (fix_polygon_or_multipolygon_ring_orientation (unionList upperPolys)) ≠ ∅ then
          build_up_exposed_layers inn st layer .currentLayer
            (get_currentLayerUnderHangArea cur
              (fix_polygon_or_multipolygon_ring_orientation (unionList upperPolys)))
            (dictAppend m layer (get_currentLayerUnderHangArea cur
              (fix_polygon_or_multipolygon_ring_orientation (unionList upperPolys))))
        else some m) with
      | none =>
        rw [hinner] at h
        exact absurd h (by simp)
      | some m1 =>
        rw [hinner] at h
        simp only at h
        have hstep1 : m1.length = m.length ∧ (DictOK inn m → DictOK inn m1) := by
          split at hinner
          · obtain ⟨hlen2, hok2⟩ :=
              build_up_exposed_layers_some inn st layer _ _ _ m1 hinner
            rw [length_dictAppend] at hlen2
            refine ⟨hlen2, fun hOK => hok2 ?_⟩
            exact DictOK_dictAppend inn m layer _ hOK
              (subset_trans (get_currentLayerUnderHangArea_subset cur _) hcur)
          · obtain rfl := Option.some_injective _ hinner
            exact ⟨rfl, id⟩
        split at h
        · rename_i hov
          obtain ⟨hlen2, hok2⟩ := build_up_exposed_layers_some inn st layer _ _ _ m2 h
          rw [length_dictAppend] at hlen2
          refine ⟨by rw [hlen2, hstep1.1], fun hOK => hok2 ?_⟩
          refine DictOK_dictAppend inn m1 (layer + 1) _ (hstep1.2 hOK) ?_
          refine subset_trans (get_upperLayerOverhangArea_subset cur _) ?_
          rw [hupper]
        · obtain rfl := Option.some_injective _ h
          exact hstep1
    · split at h
      · rename_i hcuronly
        obtain ⟨hlen2, hok2⟩ := build_up_exposed_layers_some inn st layer _ _ _ m2 h
        rw [length_dictAppend] at hlen2
        refine ⟨hlen2, fun hOK => hok2 ?_⟩
        exact DictOK_dictAppend inn m layer cur hOK hcur
      · split at h
        · rename_i hupperonly
          obtain ⟨hlen2, hok2⟩ := build_up_exposed_layers_some inn st layer _ _ _ m2 h
          rw [length_dictAppend] at hlen2
          refine ⟨hlen2, fun hOK => hok2 ?_⟩
          refine DictOK_dictAppend inn m (layer + 1) _ hOK ?_
          rw [← hupper]
        · obtain rfl := Option.some_injective _ h
          exact ⟨rfl, id⟩

theorem processUpperBand_some (inn : List (List Area)) (st layer : ℕ)
    (cur : Area) (m m2 : List (List Area))
    (hcur : cur ⊆ unionList (inn.getD layer []))
    (h : processUpperBand inn st layer cur m = some m2) :
    m2.length = m.length ∧ (DictOK inn m → DictOK inn m2) := by
  simp only [processUpperBand] at h
  cases hpy : pyIdx inn ((layer : Int) + 1) with
  | none =>
    rw [hpy] at h
    exact absurd h (by simp)
  | some upperPolys =>
    rw [hpy] at h
    simp only at h
    have hm1 : ∀ mm, DictOK inn mm → DictOK inn
        (if cur ≠ ∅ then dictAppend mm layer cur else mm) := by
      intro mm hOK
      split
      · exact DictOK_dictAppend inn mm layer cur hOK hcur
      · exact hOK
    have hm1len : ∀ mm : List (List Area),
        (if cur ≠ ∅ then dictAppend mm layer cur else mm).length = mm.length := by
      intro mm
      split
      · exact length_dictAppend mm layer cur
      · rfl
    split at h
    · rename_i hund
      obtain ⟨hlen2, hok2⟩ := build_up_exposed_layers_some inn st layer _ _ _ m2 h
      rw [length_dictAppend, hm1len] at hlen2
      refine ⟨hlen2, fun hOK => hok2 ?_⟩
      refine DictOK_dictAppend inn _ layer _ (hm1 m hOK) ?_
      exact subset_trans (get_currentLayerUnderHangArea_subset cur _) hcur
    · obtain rfl := Option.some_injective _ h
      exact ⟨hm1len m, hm1 m⟩

theorem processTop_some (inn : List (List Area)) (st layer : ℕ)
    (cur : Area) (m m2 : List (List Area))
    (hcur : cur ⊆ unionList (inn.getD layer []))
    (h : processTop inn st layer cur m = some m2) :
    m2.length = m.length ∧ (DictOK inn m → DictOK inn m2) := by
  rw [processTop] at h
  split at h
  · obtain ⟨hlen2, hok2⟩ := build_up_exposed_layers_some inn st layer _ _ _ m2 h
    rw [length_dictAppend] at hlen2
    refine ⟨hlen2, fun hOK => hok2 ?_⟩
    exact DictOK_dictAppend inn m layer cur hOK hcur
  · obtain rfl := Option.some_injective _ h
    exact ⟨rfl, id⟩

theorem processLayer_some (inn : List (List Area)) (st layer : ℕ)
    (m m2 : List (List Area))
    (h : processLayer inn st layer m = some m2) :
    m2.length = m.length ∧ (DictOK inn m → DictOK inn m2) := by
  have hcur : fix_polygon_or_multipolygon_ring_orientation (unionList (inn.getD layer []))
      ⊆ unionList (inn.getD layer []) := subset_refl _
  rw [processLayer] at h
  split at h
  · exact processBottom_some inn st layer _ m m2 hcur h
  · split at h
    · exact processMiddle_some inn st layer _ m m2 hcur h
    · split at h
      · exact processUpperBand_some inn st layer _ m m2 hcur h
      · split at h
        · exact processTop_some inn st layer _ m m2 hcur h
        · obtain rfl := Option.some_injective _ h
          exact ⟨rfl, id⟩

theorem get_manifold_loop_some (inn : List (List Area)) (st : ℕ) :
    ∀ (layers : List ℕ) (m m2 : List (List Area)),
      get_manifold_loop inn st layers m = some m2 →
      m2.length = m.length ∧ (DictOK inn m → DictOK inn m2) := by
  intro layers
  induction layers with
  | nil =>
    intro m m2 h
    rw [get_manifold_loop] at h
    obtain rfl := Option.some_injective _ h
    exact ⟨rfl, id⟩
  | cons layer rest ih =>
    intro m m2 h
    rw [get_manifold_loop] at h
    cases hp : processLayer inn st layer m with
    | none =>
      rw [hp] at h
      exact absurd h (by simp)
    | some m1 =>
      rw [hp] at h
      obtain ⟨hl1, hok1⟩ := processLayer_some inn st layer m m1 hp
      obtain ⟨hl2, hok2⟩ := ih m1 m2 h
      exact ⟨by rw [hl2, hl1], fun hOK => hok2 (hok1 hOK)⟩

theorem build_up_bounds_current (inn : List (List Area)) (st layer : ℕ)
    (hst : st ≤ layer) (hlayer : layer < inn.length) :
    ∀ k ∈ List.range' 1 (st - 1),
      0 ≤ (layer : Int) + exposedSign .currentLayer * (k : Int)
          + exposedIndexAddition .currentLayer ∧
      (layer : Int) + exposedSign .currentLayer * (k : Int)
          + exposedIndexAddition .currentLayer < (inn.length : Int) := by
  intro k hk
  rw [List.mem_range'_1] at hk
  simp only [exposedSign, exposedIndexAddition]
  omega

theorem build_up_bounds_upper (inn : List (List Area)) (st layer : ℕ)
    (hub : layer + st < inn.length) :
    ∀ k ∈ List.range' 1 (st - 1),
      0 ≤ (layer : Int) + exposedSign .upperLayer * (k : Int)
          + exposedIndexAddition .upperLayer ∧
      (layer : Int) + exposedSign .upperLayer * (k : Int)
          + exposedIndexAddition .upperLayer < (inn.length : Int) := by
  intro k hk
  rw [List.mem_range'_1] at hk
  simp only [exposedSign, exposedIndexAddition]
  omega

theorem processBottom_isSome (inn : List (List Area)) (st layer : ℕ)
    (cur : Area) (m : List (List Area)) (hst : 1 ≤ st) (hn : 2 * st ≤ inn.length)
    (hlayer : layer < st) (hm : m.length = inn.length) :
    ∃ m2, processBottom inn st layer cur m = some m2 := by
  obtain ⟨upperPolys, hpy⟩ : ∃ x, pyIdx inn ((layer : Int) + 1) = some x := by
    refine pyIdx_isSome_of_bounds inn _ (by omega) (by omega)
  simp only [processBottom, hpy]
  split
  · refine build_up_go_isSome inn layer _ _ _ _ _ ?_ ?_
    · rw [length_dictAppend]
      split
      · rw [length_dictAppend]
        exact hm
      · exact hm
    · exact build_up_bounds_upper inn st layer (by omega)
  · exact ⟨_, rfl⟩

theorem processMiddle_isSome (inn : List (List Area)) (st layer : ℕ)
    (cur : Area) (m : List (List Area)) (hst : 1 ≤ st)
    (hlo : st ≤ layer) (hhi : (layer : Int) < (inn.length : Int) - (st : Int))
    (hm : m.length = inn.length) :
    ∃ m2, processMiddle inn st layer cur m = some m2 := by
  obtain ⟨upperPolys, hpy⟩ : ∃ x, pyIdx inn ((layer : Int) + 1) = some x := by
    refine pyIdx_isSome_of_bounds inn _ (by omega) (by omega)
  simp only [processMiddle, hpy]
  split
  · have hinner : ∃ m1, (if get_currentLayerUnderHangArea cur
          (fix_polygon_or_multipolygon_ring_orientation (unionList upperPolys)) ≠ ∅ then
        build_up_exposed_layers inn st layer .currentLayer
          (get_currentLayerUnderHangArea cur
            (fix_polygon_or_multipolygon_ring_orientation (unionList upperPolys)))
          (dictAppend m layer (get_currentLayerUnderHangArea cur
            (fix_polygon_or_multipolygon_ring_orientation (unionList upperPolys))))
      else some m) = some m1 ∧ m1.length = inn.length := by
      split
      · obtain ⟨m1, hm1⟩ := build_up_go_isSome inn layer
          (exposedSign .currentLayer) (exposedIndexAddition .currentLayer)
          (get_currentLayerUnderHangArea cur
            (fix_polygon_or_multipolygon_ring_orientation (unionList upperPolys)))
          (List.range' 1 (st - 1))
          (dictAppend m layer (get_currentLayerUnderHangArea cur
            (fix_polygon_or_multipolygon_ring_orientation (unionList upperPolys))))
          (by rw [length_dictAppend]; exact hm)
          (build_up_bounds_current inn st layer hlo (by omega))
        refine ⟨m1, hm1, ?_⟩
        obtain ⟨hl, _⟩ := build_up_go_some inn layer _ _ _ _ _ m1 hm1
        rw [hl, length_dictAppend]
        exact hm
      · exact ⟨m, rfl, hm⟩
    obtain ⟨m1, hm1, hm1len⟩ := hinner
    rw [hm1]
    simp only
    split
    · refine build_up_go_isSome inn layer _ _ _ _ _ ?_ ?_
      · rw [length_dictAppend]
        exact hm1len
      · exact build_up_bounds_upper inn st layer (by omega)
    · exact ⟨m1, rfl⟩
  · split
    · refine build_up_go_isSome inn layer _ _ _ _ _ ?_ ?_
      · rw [length_dictAppend]
        exact hm
      · exact build_up_bounds_current inn st layer hlo (by omega)
    · split
      · refine build_up_go_isSome inn layer _ _ _ _ _ ?_ ?_
        · rw [length_dictAppend]
          exact hm
        · exact build_up_bounds_upper inn st layer (by omega)
      · exact ⟨m, rfl⟩

theorem processUpperBand_isSome (inn : List (List Area)) (st layer : ℕ)
    (cur : Area) (m : List (List Area))
    (hlo : st ≤ layer) (hhi : (layer : Int) < (inn.length : Int) - 1)
    (hm : m.length = inn.length) :
    ∃ m2, processUpperBand inn st layer cur m = some m2 := by
  obtain ⟨upperPolys, hpy⟩ : ∃ x, pyIdx inn ((layer : Int) + 1) = some x := by
    refine pyIdx_isSome_of_bounds inn _ (by omega) (by omega)
  simp only [processUpperBand, hpy]
  split
  · refine build_up_go_isSome inn layer _ _ _ _ _ ?_ ?_
    · rw [length_dictAppend]
      split
      · rw [length_dictAppend]
        exact hm
      · exact hm
    · exact build_up_bounds_current inn st layer hlo (by omega)
  · exact ⟨_, rfl⟩

theorem processTop_isSome (inn : List (List Area)) (st layer : ℕ)
    (cur : Area) (m : List (List Area))
    (hlo : st ≤ layer) (hlayer : layer < inn.length)
    (hm : m.length = inn.length) :
    ∃ m2, processTop inn st layer cur m = some m2 := by
  rw [processTop]
  split
  · refine build_up_go_isSome inn layer _ _ _ _ _ ?_ ?_
    · rw [length_dictAppend]
      exact hm
    · exact build_up_bounds_current inn st layer hlo hlayer
  · exact ⟨m, rfl⟩

theorem processLayer_isSome (inn : List (List Area)) (st layer : ℕ)
    (m : List (List Area)) (hst : 1 ≤ st) (hn : 2 * st ≤ inn.length)
    (hlayer : layer < inn.length) (hm : m.length = inn.length) :
    ∃ m2, processLayer inn st layer m = some m2 := by
  rw [processLayer]
  split
  · rename_i hbot
    exact processBottom_isSome inn st layer _ m hst hn hbot hm
  · rename_i hbot
    split
    · rename_i hmid
      exact processMiddle_isSome inn st layer _ m hst hmid.1 hmid.2 hm
    · split
      · rename_i hmid hup
        exact processUpperBand_isSome inn st layer _ m hup.1 hup.2 hm
      · split
        · exact processTop_isSome inn st layer _ m (by omega) hlayer hm
        · exact ⟨m, rfl⟩

theorem get_manifold_loop_isSome (inn : List (List Area)) (st : ℕ)
    (hst : 1 ≤ st) (hn : 2 * st ≤ inn.length) :
    ∀ (layers : List ℕ) (m : List (List Area)),
      (∀ layer ∈ layers, layer < inn.length) → m.length = inn.length →
      ∃ m2, get_manifold_loop inn st layers m = some m2 := by
  intro layers
  induction layers with
  | nil =>
    intro m _ _
    exact ⟨m, rfl⟩
  | cons layer rest ih =>
    intro m hlayers hm
    obtain ⟨m1, hp⟩ := processLayer_isSome inn st layer m hst hn
      (hlayers layer (by simp)) hm
    rw [get_manifold_loop, hp]
    refine ih m1 (fun l hl => hlayers l (by simp [hl])) ?_
    rw [(processLayer_some inn st layer m m1 hp).1]
    exact hm

theorem getD_replicate_nil (n j : ℕ) :
    (List.replicate n ([] : List Area)).getD j [] = [] := by
  by_cases h : j < n
  · rw [List.getD_eq_getElem _ _ (by simpa using h)]
    simp
  · exact List.getD_eq_default _ _ (by simpa using h)

theorem DictOK_replicate (inn : List (List Area)) (n : ℕ) :
    DictOK inn (List.replicate n []) := by
  intro L a ha
  rw [getD_replicate_nil] at ha
  exact absurd ha (by simp)

theorem fix_orientation_eq (a : Area) :
    fix_polygon_or_multipolygon_ring_orientation a = a := rfl

/-- The per-layer result of the 100%-infill branch. -/
theorem manifold_full_infill_getD (inn : List (List Area)) (L : ℕ)
    (hL : L < inn.length) :
    (manifold_full_infill inn).getD L []
      = if unionList (inn.getD L []) ≠ ∅ then [unionList (inn.getD L [])] else [] := by
  have main : ∀ t, t ≤ inn.length →
      ((List.range t).foldl
        (fun manifoldAreas layer =>
          if unionList (inn.getD layer []) ≠ ∅ then
            dictAppend manifoldAreas layer (unionList (inn.getD layer []))
          else manifoldAreas)
        (List.replicate inn.length [])).length = inn.length ∧
      ∀ j, j < inn.length →
        ((List.range t).foldl
          (fun manifoldAreas layer =>
            if unionList (inn.getD layer []) ≠ ∅ then
              dictAppend manifoldAreas layer (unionList (inn.getD layer []))
            else manifoldAreas)
          (List.replicate inn.length [])).getD j []
          = if j < t ∧ unionList (inn.getD j []) ≠ ∅ then [unionList (inn.getD j [])]
            else [] := by
    intro t
    induction t with
    | zero =>
      intro _
      refine ⟨by simp, ?_⟩
      intro j hj
      rw [if_neg (by omega)]
      simp only [List.range_zero, List.foldl_nil]
      exact getD_replicate_nil _ _
    | succ t ih =>
      intro ht
      obtain ⟨ihlen, ihval⟩ := ih (by omega)
      rw [List.range_succ, List.foldl_append, List.foldl_cons, List.foldl_nil]
      constructor
      · split
        · rw [length_dictAppend]
          exact ihlen
        · exact ihlen
      · intro j hj
        split
        · rename_i hne
          rw [dictAppend, getD_set_eq_ite]
          by_cases hjt : t = j
          · subst hjt
            rw [if_pos ⟨rfl, by rw [ihlen]; omega⟩, ihval t (by omega),
              if_neg (by omega), if_pos ⟨by omega, hne⟩]
            simp
          · rw [if_neg (fun hcon => hjt hcon.1), ihval j hj]
            by_cases hcond : j < t ∧ unionList (inn.getD j []) ≠ ∅
            · rw [if_pos hcond, if_pos ⟨by omega, hcond.2⟩]
            · rw [if_neg hcond, if_neg (fun hcon2 => hcond ⟨by omega, hcon2.2⟩)]
        · rename_i hemp
          rw [ihval j hj]
          by_cases hjt : t = j
          · subst hjt
            rw [if_neg (by omega), if_neg (fun hcon2 => hemp hcon2.2)]
          · by_cases hcond : j < t ∧ unionList (inn.getD j []) ≠ ∅
            · rw [if_pos hcond, if_pos ⟨by omega, hcond.2⟩]
            · rw [if_neg hcond, if_neg (fun hcon2 => hcond ⟨by omega, hcon2.2⟩)]
  have hthis := (main inn.length le_rfl).2 L hL
  simp only [manifold_full_infill, fix_orientation_eq]
  rw [hthis]
  by_cases hA : unionList (inn.getD L []) ≠ ∅
  · rw [if_pos ⟨hL, hA⟩, if_pos hA]
  · rw [if_neg (fun hcon => hA hcon.2), if_neg hA]

/-! ### Claim C2: 100% infill -/

/-- C2: when the infill fraction is `1.0` or greater, every layer with a
nonzero innermost area gets exactly that area as its manifold area, layers
with empty innermost area get none, and every layer's internal area is
empty. -/
theorem get_manifold_areas_full_infill_spec (inn : List (List Area)) (p : ℚ)
    (st : ℕ) (hp : 1 ≤ p) :
    ∃ m i, get_manifold_areas_for_one_chunk inn p st = some (m, i) ∧
      ∀ L, L < inn.length →
        (unionList (inn.getD L []) ≠ ∅ → m.getD L [] = [unionList (inn.getD L [])]) ∧
        (unionList (inn.getD L []) = ∅ → m.getD L [] = []) ∧
        i.getD L [] = [] := by
  refine ⟨manifold_full_infill inn, List.replicate inn.length [], ?_, ?_⟩
  · simp only [get_manifold_areas_for_one_chunk, if_pos hp]
  · intro L hL
    refine ⟨?_, ?_, getD_replicate_nil _ _⟩
    · intro hA
      rw [manifold_full_infill_getD inn L hL, if_pos hA]
    · intro hA
      rw [manifold_full_infill_getD inn L hL, if_neg (not_not_intro hA)]

/-- Witness for C2 on one layer with a nonempty innermost area, at infill
fraction exactly `1.0`. -/
theorem get_manifold_areas_full_infill_spec_witness :
    ∃ m i, get_manifold_areas_for_one_chunk [[{0}]] 1 1 = some (m, i) ∧
      ∀ L, L < ([[{0}]] : List (List Area)).length →
        (unionList (([[{0}]] : List (List Area)).getD L []) ≠ ∅ →
          m.getD L [] = [unionList (([[{0}]] : List (List Area)).getD L [])]) ∧
        (unionList (([[{0}]] : List (List Area)).getD L []) = ∅ → m.getD L [] = []) ∧
        i.getD L [] = [] :=
  get_manifold_areas_full_infill_spec [[{0}]] 1 1 le_rfl

/-! ### Claim C10: layer-index bounds of the Area Classifier -/

/-- C10: when the infill fraction is below 1.0, all layer indices the
classifier reads (the layer above the current one in the bottom band, and the
thickened layers up to `shellThickness - 1` steps away in
`build_up_exposed_layers`) stay within the innermost-polygon list whenever
the number of layers is at least `2·shellThickness` (for any wall count ≥ 1),
so the classifier returns; for shorter layer stacks it can read past the end
of the list and fail with an out-of-range access instead of returning — for
example with one layer and `shellThickness = 1` at 50% infill. -/
theorem get_manifold_areas_layer_index_safety :
    (∀ (inn : List (List Area)) (p : ℚ) (st : ℕ), 1 ≤ st → 2 * st ≤ inn.length →
      (get_manifold_areas_for_one_chunk inn p st).isSome = true) ∧
    get_manifold_areas_for_one_chunk [[{0}]] (1 / 2) 1 = none := by
  constructor
  · intro inn p st hst hn
    simp only [get_manifold_areas_for_one_chunk]
    split
    · rfl
    · split
      · obtain ⟨m2, hloop⟩ := get_manifold_loop_isSome inn st hst hn
          (List.range inn.length) (List.replicate inn.length [])
          (fun l hl => List.mem_range.mp hl) (by simp)
        rw [hloop]
        show (if p ≠ 0 then some (m2, internalAreas_calc inn m2)
          else some (m2, List.replicate inn.length [])).isSome = true
        split <;> rfl
      · rfl
  · have h1 : ¬ (1 : ℚ) ≤ 1 / 2 := by norm_num
    have h2 : (0 : ℚ) ≤ 1 / 2 ∧ (1 : ℚ) / 2 < 1 := by norm_num
    simp only [get_manifold_areas_for_one_chunk, if_neg h1, if_pos h2]
    decide

/-- Witness for C10's in-bounds part: two layers, one shell. -/
theorem get_manifold_areas_layer_index_safety_witness :
    (get_manifold_areas_for_one_chunk [[{0}], [{0}]] (1 / 2) 1).isSome = true :=
  get_manifold_areas_layer_index_safety.1 [[{0}], [{0}]] (1 / 2) 1 (by decide) (by decide)

theorem unionList_nil : unionList [] = ∅ := rfl

theorem internalAreas_calc_getD (inn m : List (List Area)) (L : ℕ)
    (hL : L < inn.length) :
    (internalAreas_calc inn m).getD L [] = internalForLayer inn m L := by
  rw [internalAreas_calc, List.getD_eq_getElem _ _ (by simpa using hL),
    List.getElem_map]
  congr 1
  exact List.getElem_range _ _

/-! ### Claim C1: area partition for intermediate infill fractions -/

/-- C1: for every run with infill fraction strictly between 0 and 1 that the
classifier completes, and for every layer, the union of the layer's manifold
and internal areas equals the layer's innermost polygon area, and the two
never overlap (tolerances idealised to zero in the exact set model). -/
theorem get_manifold_areas_partition (inn : List (List Area)) (p : ℚ) (st : ℕ)
    (m i : List (List Area)) (hp0 : 0 < p) (hp1 : p < 1)
    (hrun : get_manifold_areas_for_one_chunk inn p st = some (m, i))
    (L : ℕ) (hL : L < inn.length) :
    unionList (m.getD L []) ∪ unionList (i.getD L []) = unionList (inn.getD L []) ∧
    unionList (m.getD L []) ∩ unionList (i.getD L []) = ∅ := by
  have h1 : ¬ (1 : ℚ) ≤ p := by linarith
  have h2 : (0 : ℚ) ≤ p ∧ p < 1 := ⟨le_of_lt hp0, hp1⟩
  have h3 : p ≠ 0 := ne_of_gt hp0
  simp only [get_manifold_areas_for_one_chunk, if_neg h1, if_pos h2] at hrun
  cases hloop : get_manifold_loop inn st (List.range inn.length)
      (List.replicate inn.length []) with
  | none =>
    rw [hloop] at hrun
    exact absurd hrun (by simp)
  | some mfin =>
    rw [hloop] at hrun
    have hrun2 : (if p ≠ 0 then some (mfin, internalAreas_calc inn mfin)
        else some (mfin, List.replicate inn.length [])) = some (m, i) := hrun
    rw [if_pos h3] at hrun2
    have hpair := Option.some_injective _ hrun2
    rw [Prod.ext_iff] at hpair
    obtain ⟨hm, hi⟩ := hpair
    subst hm
    subst hi
    have hOK : DictOK inn mfin :=
      (get_manifold_loop_some inn st _ _ _ hloop).2 (DictOK_replicate inn _)
    have hsub : unionList (mfin.getD L []) ⊆ unionList (inn.getD L []) :=
      unionList_subset _ _ (fun a ha => hOK L a ha)
    rw [internalAreas_calc_getD inn mfin L hL]
    simp only [internalForLayer, fix_orientation_eq]
    by_cases hmne : mfin.getD L [] ≠ []
    · rw [if_pos hmne]
      by_cases heq : unionList (inn.getD L []) = unionList (mfin.getD L [])
      · rw [if_pos heq, unionList_nil]
        exact ⟨by rw [Finset.union_empty]; exact heq.symm, Finset.inter_empty _⟩
      · rw [if_neg heq]
        by_cases hdne : unionList (inn.getD L []) \ unionList (mfin.getD L []) ≠ ∅
        · rw [if_pos hdne, unionList_singleton]
          exact ⟨Finset.union_sdiff_of_subset hsub, Finset.inter_sdiff_self _ _⟩
        · exfalso
          push_neg at hdne
          rw [Finset.sdiff_eq_empty_iff_subset] at hdne
          exact heq (Finset.Subset.antisymm hdne hsub)
    · push_neg at hmne
      rw [if_neg (not_not_intro hmne), hmne, unionList_nil, unionList_singleton]
      exact ⟨Finset.empty_union _, Finset.empty_inter _⟩

/-- Witness for C1 on a two-layer stack at 50% infill with one wall. -/
theorem get_manifold_areas_partition_witness :
    unionList (([[{0}], [{0}]] : List (List Area)).getD 0 [])
        ∪ unionList (([[], []] : List (List Area)).getD 0 [])
      = unionList (([[{0}], [{0}]] : List (List Area)).getD 0 []) ∧
    unionList (([[{0}], [{0}]] : List (List Area)).getD 0 [])
        ∩ unionList (([[], []] : List (List Area)).getD 0 []) = ∅ := by
  have hrun : get_manifold_areas_for_one_chunk [[{0}], [{0}]] (1 / 2) 1
      = some ([[{0}], [{0}]], [[], []]) := by
    have h1 : ¬ (1 : ℚ) ≤ 1 / 2 := by norm_num
    have h2 : (0 : ℚ) ≤ 1 / 2 ∧ (1 : ℚ) / 2 < 1 := by norm_num
    have h3 : (1 : ℚ) / 2 ≠ 0 := by norm_num
    simp only [get_manifold_areas_for_one_chunk, if_neg h1, if_pos h2]
    have hloop : get_manifold_loop [[{0}], [{0}]] 1
        (List.range ([[{0}], [{0}]] : List (List Area)).length)
        (List.replicate ([[{0}], [{0}]] : List (List Area)).length [])
        = some [[{0}], [{0}]] := by decide
    rw [hloop]
    show (if (1 : ℚ) / 2 ≠ 0 then
        some (([[{0}], [{0}]] : List (List Area)),
          internalAreas_calc [[{0}], [{0}]] [[{0}], [{0}]])
      else some ([[{0}], [{0}]], List.replicate ([[{0}], [{0}]] : List (List Area)).length []))
      = some ([[{0}], [{0}]], [[], []])
    rw [if_pos h3]
    decide
  have hmain := get_manifold_areas_partition [[{0}], [{0}]] (1 / 2) 1
    [[{0}], [{0}]] [[], []] (by norm_num) (by norm_num) hrun 0 (by decide)
  have hi0 : unionList (([[{0}], [{0}]] : List (List Area)).getD 0 [])
      ∪ unionList (([[], []] : List (List Area)).getD 0 [])
      = unionList (([[{0}], [{0}]] : List (List Area)).getD 0 []) := hmain.1
  exact ⟨hi0, hmain.2⟩
